import Mathlib

/-!
A verification development for the moppi package installer.

The definitions below are a shallow embedding of the repository's core:

* `moppi/dependency.py` — the `Dependency` record, its string parser
  (`Dependency.from_string` and friends) and its name-based equality;
* `moppi/config.py` — the `Config` class that loads the dependency list from
  the persisted `pyproject.toml` document and serializes it back;
* `moppi/installer.py` — the `Moppi` class with the user-facing operations
  `add`, `update`, `remove` and the recursive helpers `_install` and
  `_cleanup_indirect`.

Modelling conventions:

* Python strings are modelled as `String`, but every operation on them
  (`replace`, `split`, `strip`, `lower`, `in`, `startswith`) is implemented
  here by structural recursion over the character list, so that concrete
  computations reduce inside the kernel.
* Python sets of `Dependency` values (whose `__eq__` compares lower-cased
  names) are modelled as lists in insertion order; `set.add` inserts at the
  end unless an element with the same lower-cased name is already present.
  Python iterates such sets in an unspecified order; the model fixes the
  insertion order as the iteration order.
* The `needed_by` members of a dependency are only ever read through
  `name`/`version`/`operator` (`as_string`, lower-cased name filtering), so
  they are modelled by the flat record `Ref` instead of a nested `Dependency`.
* Python exceptions (the explicit `raise` in `from_string`, the `IndexError`
  that `operator_constraints[0]` can raise, a failed registry fetch, and the
  `AttributeError` that `new_dependency.needed_by.add(dependency)` raises at
  installer.py:205 — `Dependency.__init__` makes `needed_by` a plain list,
  dependency.py:45, and a list has no `.add` — for every non-marker
  `requires_dist` entry) are modelled with `Except`/`Option`.
* `\w` in the `from_string` regular expression is modelled as ASCII
  alphanumerics plus underscore.
* The recursive `_install` and `_cleanup_indirect` have no termination
  guarantee in the source (see the cycle hazard in the spec), so they are
  modelled with explicit fuel and return `none` when the fuel runs out.
  In `_install` the recursive call is in fact unreachable: the
  `AttributeError` above fires before it on every path that would recurse.
-/

namespace Moppi

/-! ### Character-list string operations -/
/-- Python `str.lower` (ASCII model). -/
def lowerStr (s : String) : String :=
  String.mk (s.data.map Char.toLower)

/-- One step of Python `str.split(sep)` for a non-empty separator, with fuel
bounding the number of consumed characters. -/
def splitOnFuel (sep : List Char) : Nat → List Char → List Char → List (List Char)
  | 0, rest, acc => [acc.reverse ++ rest]
  | _ + 1, [], acc => [acc.reverse]
  | n + 1, c :: rest, acc =>
    if sep.isPrefixOf (c :: rest) then
      acc.reverse :: splitOnFuel sep n (List.drop sep.length (c :: rest)) []
    else
      splitOnFuel sep n rest (c :: acc)

/-- Python `str.split(sep)` on character lists (`sep` non-empty in all uses). -/
def splitOnL (sep cs : List Char) : List (List Char) :=
  if sep.isEmpty then [cs] else splitOnFuel sep cs.length cs []

/-- Python `str.split(sep)` on strings. -/
def splitOnS (sep s : String) : List String :=
  (splitOnL sep.data s.data).map String.mk

/-- Python `needle in hay` (substring test) on character lists. -/
def isInfixL : List Char → List Char → Bool
  | needle, [] => needle.isEmpty
  | needle, c :: rest => needle.isPrefixOf (c :: rest) || isInfixL needle rest

/-- Python `str.strip()` on a character list. -/
def trimL (cs : List Char) : List Char :=
  ((cs.dropWhile Char.isWhitespace).reverse.dropWhile Char.isWhitespace).reverse

/-! ### `moppi/dependency.py` -/
/-- `DependencyOperator` from `moppi/dependency.py`. -/
inductive DependencyOperator where
  | equal
  | upper
  | lower
deriving DecidableEq, Repr

/-- The string value of an operator (`"=="`, `">="`, `"<="`). -/
def DependencyOperator.str : DependencyOperator → String
  | .equal => "=="
  | .upper => ">="
  | .lower => "<="

/-- The members of the `DependencyOperator` enum, in declaration order: the
`for operator in DependencyOperator` loop in `from_string` iterates them in
this order. -/
def operatorList : List DependencyOperator :=
  [.equal, .upper, .lower]

/-- A member of a `needed_by` collection.  In the source these are full
`Dependency` objects, but only their `name`, `version` and `operator` are
ever read, so the model keeps just those fields. -/
structure Ref where
  name : String
  version : String
  operator : DependencyOperator
deriving DecidableEq, Repr

/-- `Ref.as_string`, mirroring `Dependency.as_string` on a parent entry. -/
def Ref.asString (r : Ref) : String :=
  r.name ++ r.operator.str ++ r.version

/-- The `Dependency` record from `moppi/dependency.py`.  `package_url` and
`filename` are registry provenance that no claim mentions and are omitted. -/
structure Dep where
  name : String
  version : String := ""
  operator : DependencyOperator := .equal
  optional : Option String := none
  needed_by : List Ref := []
  sha256 : String := "hashqwe"
  requires_dist : List String := []
deriving DecidableEq, Repr

/-- The `Dependency(name, optional)` constructor. -/
def Dep.mkNamed (name : String) (optional : Option String := none) : Dep :=
  { name := name, optional := optional }

/-- `Dependency.__eq__`: equality by lower-cased name only. -/
def Dep.eqName (a b : Dep) : Bool :=
  lowerStr a.name == lowerStr b.name

/-- `Dependency.as_string`: the `"package==1.0"`-like rendering. -/
def Dep.asString (d : Dep) : String :=
  d.name ++ d.operator.str ++ d.version

/-- Projection of a full dependency to the part of it that a `needed_by`
collection actually uses. -/
def Dep.toRef (d : Dep) : Ref :=
  ⟨d.name, d.version, d.operator⟩

/-- A character matched by `[\w\.-]` in the `from_string` regular expression
(ASCII model of `\w`). -/
def nameChar (c : Char) : Bool :=
  c.isAlphanum || c = '_' || c = '.' || c = '-'

/-- `Dependency.from_string`.  Mirrors the source step by step: strip spaces
and parentheses, match the leading name (raising on failure), split the rest
into comma-separated constraints, then take the first enum operator occurring
anywhere in the string and read the version out of the first constraint that
starts with it (`operator_constraints[0]` raises `IndexError` when there is
no such constraint). -/
def fromString (string : String) (optional : Option String := none) :
    Except String Dep :=
  let s : List Char := string.data.filter (fun c => c ≠ ' ' && c ≠ '(' && c ≠ ')')
  match s with
  | [] => .error ("Unknown dependency string: " ++ String.mk s)
  | c :: _ =>
    if nameChar c then
      let packageName := String.mk (s.takeWhile nameChar)
      let constraintsString := s.dropWhile nameChar
      let constraints :=
        ((splitOnL ",".data constraintsString).map trimL).filter (· ≠ [])
      let base : Dep := Dep.mkNamed packageName optional
      match operatorList.find? (fun op => isInfixL op.str.data s) with
      | none => .ok base
      | some op =>
        match constraints.filter (op.str.data.isPrefixOf ·) with
        | [] => .error "IndexError: list index out of range"
        | c0 :: _ =>
          .ok { base with
                  version := String.mk ((splitOnL op.str.data c0).getD 1 [])
                  operator := op }
    else
      .error ("Unknown dependency string: " ++ String.mk s)

/-- `Dependency.from_composite_string`: `"dep :: parent1 :: parent2"`. -/
def fromCompositeString (string : String) : Except String Dep := do
  let parts := splitOnS " :: " string
  let dep ← fromString (parts.headD "")
  let refs ← parts.tail.mapM (fun p => (fromString p).map Dep.toRef)
  pure { dep with needed_by := refs }

/-- `Dependency.from_lock_string`: `"dep :: parent1 :: ... :: sha"`; the
last part becomes `sha256`, the middle parts become `needed_by`. -/
def fromLockString (string : String) : Except String Dep := do
  let parts := splitOnS " :: " string
  let dep ← fromString (parts.headD "")
  let refs ← (parts.tail.dropLast).mapM (fun p => (fromString p).map Dep.toRef)
  pure { dep with needed_by := refs, sha256 := parts.getLastD "" }

/-! ### `moppi/config.py`

The persisted `pyproject.toml` document is modelled by the four sections the
`Config` class reads and writes; all other keys of the file pass through
`config_data` untouched by both `__init__` and `save`, so they are omitted.
An absent section and an empty one are both modelled by `[]` (matching
`dict.get(..., [])` on load; on save only `project.dependencies` is written
when empty, and TOML serialization of the containing tables is the external
`tomli_w` collaborator's concern). -/
/-- The dependency-related content of the persisted `pyproject.toml`. -/
structure TomlDoc where
  /-- `project.dependencies`: direct dependency strings. -/
  dependencies : List String := []
  /-- `project.optional-dependencies`: group name to dependency strings. -/
  optionalDependencies : List (String × List String) := []
  /-- `tool.moppi.indirect-dependencies`: composite strings. -/
  indirectDependencies : List String := []
  /-- `tool.moppi.dependency-lock`: lock strings. -/
  dependencyLock : List String := []
deriving DecidableEq, Repr

/-- The `if dependency not in self.dependencies` guard of `Config.__init__`:
append unless a dependency with the same lower-cased name is present. -/
def addIfNew (l : List Dep) (d : Dep) : List Dep :=
  if l.any (fun x => x.eqName d) then l else l ++ [d]

/-- Parse one section of the config: loop over the strings, parsing each and
deduplicating with `addIfNew`; a parse failure propagates (the loops in
`Config.__init__` have no exception handler). -/
def loadSection (parse : String → Except String Dep) (l : List Dep) :
    List String → Except String (List Dep)
  | [] => .ok l
  | s :: ss =>
    match parse s with
    | .error e => .error e
    | .ok d => loadSection parse (addIfNew l d) ss

/-- The loop over optional-dependency groups in `Config.__init__`. -/
def loadGroups (l : List Dep) :
    List (String × List String) → Except String (List Dep)
  | [] => .ok l
  | gs :: rest =>
    match loadSection (fromString · (some gs.1)) l gs.2 with
    | .error e => .error e
    | .ok l => loadGroups l rest

/-- `Config.__init__` after the file read: build the dependency list from the
four sections, in source order (main, optional, indirect, lock). -/
def configLoad (doc : TomlDoc) : Except String (List Dep) :=
  match loadSection (fromString · none) [] doc.dependencies with
  | .error e => .error e
  | .ok l =>
    match loadGroups l doc.optionalDependencies with
    | .error e => .error e
    | .ok l =>
      match loadSection fromCompositeString l doc.indirectDependencies with
      | .error e => .error e
      | .ok l => loadSection fromLockString l doc.dependencyLock

/-- `dict.setdefault(group, []).append(s)` on the optional-dependencies
mapping (insertion-ordered, as Python dicts are). -/
def appendToGroup (groups : List (String × List String)) (g s : String) :
    List (String × List String) :=
  if groups.any (·.1 = g) then
    groups.map (fun gs => if gs.1 = g then (gs.1, gs.2 ++ [s]) else gs)
  else
    groups ++ [(g, [s])]

/-- One iteration of the dump loop in `Config.save`: route the dependency to
the indirect, optional or main section, and always append its lock entry. -/
def saveStep (doc : TomlDoc) (d : Dep) : TomlDoc :=
  let neededBy := " :: ".intercalate (d.needed_by.map Ref.asString)
  let doc :=
    if d.needed_by ≠ [] then
      { doc with indirectDependencies :=
          doc.indirectDependencies ++ [d.asString ++ " :: " ++ neededBy] }
    else
      match d.optional with
      | some g =>
        { doc with optionalDependencies :=
            appendToGroup doc.optionalDependencies g d.asString }
      | none =>
        { doc with dependencies := doc.dependencies ++ [d.asString] }
  { doc with dependencyLock := doc.dependencyLock ++
      [d.asString ++ (if neededBy ≠ "" then " :: " ++ neededBy else "") ++
        " :: " ++ d.sha256] }

/-- `Config.save`: clear the four sections and dump every dependency. -/
def configSave (deps : List Dep) : TomlDoc :=
  deps.foldl saveStep {}

/-- A main (direct) node: no requirers, no optional group. -/
def isMainDep (d : Dep) : Bool := d.needed_by.isEmpty && d.optional.isNone

/-- An optional-grouped node: no requirers, an optional group. -/
def isOptDep (d : Dep) : Bool := d.needed_by.isEmpty && !d.optional.isNone

/-- An indirect node: it has requirers. -/
def isIndDep (d : Dep) : Bool := !d.needed_by.isEmpty

/-- The dependency value `from_string` rebuilds from `as_string` output:
name, version and operator only. -/
def plainRoot (d : Dep) : Dep :=
  { name := d.name, version := d.version, operator := d.operator }

/-- What a round trip through save/load preserves of a node: everything
except the pypi-provenance fields `sha256` (reset to the class default) and
`requires_dist`. -/
def scrubDep (d : Dep) : Dep :=
  { d with sha256 := "hashqwe", requires_dist := [] }

/-- The indirect-dependencies entry `Config.save` writes for a node. -/
def compositeString (d : Dep) : String :=
  d.asString ++ " :: " ++ " :: ".intercalate (d.needed_by.map Ref.asString)

/-- The dependency-lock entry `Config.save` writes for a node. -/
def lockString (d : Dep) : String :=
  d.asString ++
    (if " :: ".intercalate (d.needed_by.map Ref.asString) ≠ "" then
      " :: " ++ " :: ".intercalate (d.needed_by.map Ref.asString) else "") ++
    " :: " ++ d.sha256

/-- The dependency value `from_lock_string` rebuilds from a lock entry. -/
def lockDep (d : Dep) : Dep :=
  { plainRoot d with needed_by := d.needed_by, sha256 := d.sha256 }

instance {ε α : Type} [DecidableEq ε] [DecidableEq α] : DecidableEq (Except ε α) :=
  fun x y =>
    match x, y with
    | .error a, .error b =>
      if h : a = b then isTrue (by rw [h]) else
        isFalse (by intro he; cases he; exact h rfl)
    | .ok a, .ok b =>
      if h : a = b then isTrue (by rw [h]) else
        isFalse (by intro he; cases he; exact h rfl)
    | .error _, .ok _ => isFalse (by intro he; cases he)
    | .ok _, .error _ => isFalse (by intro he; cases he)

/-- A node whose persisted strings parse back to the node itself (up to the
fields a round trip cannot keep): its rendered requirement string parses to
its name/version/operator, with and without its optional group, its
composite entry parses back to it with its `needed_by` edges, and its lock
entry parses back to it with its sha. -/
def WfDep (d : Dep) : Prop :=
  fromString d.asString none = .ok (plainRoot d) ∧
  fromString d.asString d.optional =
    .ok { plainRoot d with optional := d.optional } ∧
  (d.needed_by ≠ [] → fromCompositeString (compositeString d) =
    .ok { plainRoot d with needed_by := d.needed_by }) ∧
  fromLockString (lockString d) = .ok (lockDep d)

instance (d : Dep) : Decidable (WfDep d) := by
  unfold WfDep
  infer_instance

/-- The accumulation of the optional-dependencies section over the dump
loop of `Config.save`. -/
def optStep (gs : List (String × List String)) (d : Dep) :
    List (String × List String) :=
  if isOptDep d then appendToGroup gs (d.optional.getD "") d.asString else gs

/-! ### `moppi/installer.py` -/
/-- Modelled from the spec: the in-memory state of `ConfigTOMLW`, the config
class the installer imports from `moppi.config` but whose definition is not
in the sources (only the differently-shaped `Config` is).  Following the
spec's ConfigStore/DependencyGraph description and the installer's usage, it
holds a set of direct dependencies, a mapping of optional-group name to a set
of dependencies, and a set of indirect dependencies. -/
structure Cfg where
  dependencies : List Dep := []
  optional_dependencies : List (String × List Dep) := []
  indirect_dependencies : List Dep := []
deriving DecidableEq, Repr

/-- All dependency nodes of the graph, across the three sections. -/
def Cfg.allDeps (s : Cfg) : List Dep :=
  s.dependencies ++ (s.optional_dependencies.map Prod.snd).flatten ++
    s.indirect_dependencies

/-- Modelled from the spec: `ConfigTOMLW.all`, the set of lower-cased names
of all installed packages (direct, optional and indirect). -/
def Cfg.all (s : Cfg) : List String :=
  s.allDeps.map (fun d => lowerStr d.name)

/-- `set.add` on a set of `Dependency` (keyed by `__eq__`, i.e. by
lower-cased name): a no-op when an equal element is present. -/
def addSet (l : List Dep) (d : Dep) : List Dep :=
  if l.any (·.eqName d) then l else l ++ [d]

/-- `optional_dependencies.setdefault(optional, set()).add(dep)`. -/
def addDepToGroup (groups : List (String × List Dep)) (g : String) (d : Dep) :
    List (String × List Dep) :=
  if groups.any (·.1 = g) then
    groups.map (fun gd => if gd.1 = g then (gd.1, addSet gd.2 d) else gd)
  else
    groups ++ [(g, [d])]

/-- The package metadata obtained from `_get_package_info` (the PyPI JSON);
`url` and `filename` are omitted as no claim mentions them. -/
structure PypiInfo where
  name : String
  version : String
  sha256 : String := ""
  requires_dist : List String := []
deriving DecidableEq, Repr

/-- The registry collaborator: `None` models a failed fetch (HTTP error),
which aborts the current command. -/
def Registry := String → Option PypiInfo

/-- `Dependency.apply_pypi_info`. -/
def applyPypiInfo (d : Dep) (i : PypiInfo) : Dep :=
  { d with
      name := i.name
      version := i.version
      operator := .equal
      sha256 := i.sha256
      requires_dist := i.requires_dist }

/-- The section-routing part of `Moppi._install`: an indirect node goes to
`indirect_dependencies`, else an optional one to its group, else to the
direct `dependencies` set. -/
def insertNode (s : Cfg) (optional : Option String) (dep : Dep) : Cfg :=
  if dep.needed_by ≠ [] then
    { s with indirect_dependencies := addSet s.indirect_dependencies dep }
  else
    match optional with
    | some g =>
      { s with optional_dependencies :=
          addDepToGroup s.optional_dependencies g dep }
    | none => { s with dependencies := addSet s.dependencies dep }

/-- `Moppi._install`, with fuel for the unbounded recursion.  Fetch the
metadata, insert the node into the indirect / optional / direct section, then
walk `requires_dist`: entries containing `";"` are skipped (`continue` fires
before anything else); every other entry aborts the whole call — when
`Dependency.from_string` raises, with that exception, and when it parses,
with the `AttributeError` from `new_dependency.needed_by.add(dependency)`
(installer.py:205): `needed_by` is a plain Python list (dependency.py:45)
and has no `.add` method.  The `AttributeError` fires before the
`config.all` membership check and before the recursive `self._install`,
which is therefore unreachable; the fuel only models the source's
(unreachable) unbounded recursion. -/
def installFuel (reg : Registry) : Nat → Dep → Option String → Cfg → Option Cfg
  | 0, _, _, _ => none
  | _ + 1, dep, optional, s =>
    match reg dep.name with
    | none => none
    | some info =>
      let dep := applyPypiInfo dep info
      dep.requires_dist.foldl
        (fun acc str =>
          match acc with
          | none => none
          | some s =>
            if isInfixL ";".data str.data then some s
            else
              match fromString str with
              | .error _ => none
              | .ok _ => none)
        (some (insertNode s optional dep))

/-- One `requires_dist` entry step of `_install`, named so that theorems can
speak about the child loop; `installFuel_succ` below identifies it with the
loop inside `installFuel`.  A marker entry is skipped; a non-marker entry
aborts: either `from_string` raises, or the parsed object's
`needed_by.add` raises `AttributeError` (a plain list has no `.add`). -/
def installChild (reg : Registry) (fuel : Nat) (dep : Dep)
    (optional : Option String) (acc : Option Cfg) (str : String) : Option Cfg :=
  match acc with
  | none => none
  | some s =>
    if isInfixL ";".data str.data then some s
    else
      match fromString str with
      | .error _ => none
      | .ok _ => none

/-- The exception a `requires_dist` entry raises inside the child loop of
`_install`: `none` when the entry contains `";"` (it is skipped and raises
nothing); otherwise the `from_string` exception when the entry fails to
parse, and the `AttributeError` from
`new_dependency.needed_by.add(dependency)` (installer.py:205,
dependency.py:45) when it parses. -/
def childError (entry : String) : Option String :=
  if isInfixL ";".data entry.data then none
  else
    match fromString entry with
    | .error e => some e
    | .ok _ => some "AttributeError: 'list' object has no attribute 'add'"

/-- The child loop of `_install` over a list of `requires_dist` entries. -/
def installChildren (reg : Registry) (fuel : Nat) (dep : Dep)
    (optional : Option String) (s : Cfg) (entries : List String) : Option Cfg :=
  entries.foldl (installChild reg fuel dep optional) (some s)

/-- `Moppi.add`: report "already installed" when the lower-cased name is in
`config.all`, otherwise `_install` a fresh `Dependency(package)` and save.
The returned list holds the user messages printed. -/
def addPkg (reg : Registry) (fuel : Nat) (package : String)
    (optional : Option String) (s : Cfg) : Option (Cfg × List String) :=
  if s.all.contains (lowerStr package) then
    some (s, ["Package " ++ package ++ " is already installed"])
  else
    match installFuel reg fuel (Dep.mkNamed package) optional s with
    | none => none
    | some s => some (s, [])

/-- `Moppi._cleanup_indirect`, with fuel for the unbounded recursion.  The
snapshot `.copy()` of the indirect set is iterated; each element is looked up
by name in the current set (object identity in the source; under the
one-node-per-name invariant the name is the identity).  An element no longer
present was removed by a nested call, which emptied its `needed_by` first, so
it takes the `not dependency.needed_by` branch: its name is appended again
and the cleanup recurses, but nothing is removed. -/
def cleanupFuel : Nat → String → Cfg → Option (Cfg × List String)
  | 0, _, _ => none
  | fuel + 1, package, s =>
    (s.indirect_dependencies.foldl
      (fun acc d =>
        match acc with
        | none => none
        | some (s, pkgs) =>
          match s.indirect_dependencies.find? (·.eqName d) with
          | some cur =>
            let nb := cur.needed_by.filter (fun r => lowerStr r.name ≠ package)
            if nb.isEmpty then
              let s := { s with indirect_dependencies :=
                s.indirect_dependencies.eraseP (·.eqName d) }
              match cleanupFuel fuel (lowerStr d.name) s with
              | none => none
              | some (s, l) => some (s, pkgs ++ [lowerStr d.name] ++ l)
            else
              let s := { s with indirect_dependencies :=
                s.indirect_dependencies.map (fun x =>
                  if x.eqName d then { x with needed_by := nb } else x) }
              some (s, pkgs)
          | none =>
            match cleanupFuel fuel (lowerStr d.name) s with
            | none => none
            | some (s, l) => some (s, pkgs ++ [lowerStr d.name] ++ l))
      (some (s, [])))

/-- One snapshot-element step of `_cleanup_indirect`, named so that theorems
can speak about the loop; `cleanupFuel_succ` below identifies it with the
loop inside `cleanupFuel`. -/
def cleanupStep (fuel : Nat) (package : String)
    (acc : Option (Cfg × List String)) (d : Dep) : Option (Cfg × List String) :=
  match acc with
  | none => none
  | some (s, pkgs) =>
    match s.indirect_dependencies.find? (·.eqName d) with
    | some cur =>
      let nb := cur.needed_by.filter (fun r => lowerStr r.name ≠ package)
      if nb.isEmpty then
        let s := { s with indirect_dependencies :=
          s.indirect_dependencies.eraseP (·.eqName d) }
        match cleanupFuel fuel (lowerStr d.name) s with
        | none => none
        | some (s, l) => some (s, pkgs ++ [lowerStr d.name] ++ l)
      else
        let s := { s with indirect_dependencies :=
          s.indirect_dependencies.map (fun x =>
            if x.eqName d then { x with needed_by := nb } else x) }
        some (s, pkgs)
    | none =>
      match cleanupFuel fuel (lowerStr d.name) s with
      | none => none
      | some (s, l) => some (s, pkgs ++ [lowerStr d.name] ++ l)

/-- Fuel that always suffices for `cleanupFuel`: nested calls happen only
after a removal or (once per removal) a dead-snapshot visit. -/
def cleanupFuelBound (s : Cfg) : Nat :=
  2 * s.indirect_dependencies.length + 2

/-- `Moppi.remove`: when the lower-cased name is not in `config.all` (and the
call is not the internal `indirect` variant) report "not installed" and stop;
otherwise drop it from the direct set and every optional group (deleting
groups that become empty), then run `_cleanup_indirect`.  Returns the new
state, the removed-name list `packages`, and the user messages. -/
def removePkg (indirect : Bool) (package : String) (s : Cfg) :
    Option (Cfg × List String × List String) :=
  let pkg := lowerStr package
  if ¬ s.all.contains pkg ∧ ¬ indirect then
    some (s, [], ["Package " ++ pkg ++ " is not installed!"])
  else
    let s := { s with dependencies :=
      s.dependencies.filter (fun d => lowerStr d.name ≠ pkg) }
    let s := { s with optional_dependencies :=
      (s.optional_dependencies.map (fun gd =>
        (gd.1, gd.2.filter (fun d => lowerStr d.name ≠ pkg)))).filter (fun gd =>
          gd.2 ≠ []) }
    match cleanupFuel (cleanupFuelBound s) pkg s with
    | none => none
    | some (s, l) => some (s, pkg :: l, [])

/-- `Moppi.update`: lower-case the name; report "not installed" when absent
from `config.all`; otherwise `remove` it and `_install` a fresh
`Dependency(package)` (no optional group), then save. -/
def updatePkg (reg : Registry) (fuel : Nat) (package : String) (s : Cfg) :
    Option (Cfg × List String) :=
  let pkg := lowerStr package
  if ¬ s.all.contains pkg then
    some (s, ["Package " ++ pkg ++ " is not installed!"])
  else
    match removePkg false pkg s with
    | none => none
    | some (s, _, msgs) =>
      match installFuel reg fuel (Dep.mkNamed pkg) none s with
      | none => none
      | some s => some (s, msgs)

/-- The Werkzeug/MarkupSafe registry of the test fixture. -/
def regW : Registry := fun n =>
  if lowerStr n == "werkzeug" then
    some ⟨"Werkzeug", "2.2.2", "f979", ["MarkupSafe>=2.0"]⟩
  else if lowerStr n == "markupsafe" then
    some ⟨"MarkupSafe", "2.1.1", "86b1", []⟩
  else none

def depW : Dep :=
  { name := "Werkzeug", version := "2.2.2", sha256 := "f979",
    requires_dist := ["MarkupSafe>=2.0"] }

def depM : Dep :=
  { name := "MarkupSafe", version := "2.1.1",
    needed_by := [⟨"Werkzeug", "2.2.2", .equal⟩], sha256 := "86b1" }

/-- The Werkzeug graph (as loaded from a persisted config): `Werkzeug`
direct, `MarkupSafe` indirect. -/
def cfgW : Cfg :=
  { dependencies := [depW], indirect_dependencies := [depM] }

/-- A registry in which `Aaa` and `Bbb` both require `Ccc`. -/
def regDiamond : Registry := fun n =>
  if lowerStr n == "aaa" then some ⟨"Aaa", "1", "", ["Ccc"]⟩
  else if lowerStr n == "bbb" then some ⟨"Bbb", "1", "", ["Ccc"]⟩
  else if lowerStr n == "ccc" then some ⟨"Ccc", "1", "", []⟩
  else none

/-- A registry whose sole root package carries a `";"`-marked entry for a
package the registry does not even know, next to a plain sibling entry. -/
def regSibling : Registry := fun n =>
  if lowerStr n == "aaa" then some ⟨"Aaa", "1", "", ["Ccc ; extra == x", "Ddd"]⟩
  else if lowerStr n == "ddd" then some ⟨"Ddd", "1", "", []⟩
  else none

/-- Parse a list of strings with no deduplication, failing on the first
parse error. -/
def parseAll (parse : String → Except String Dep) :
    List String → Except String (List Dep)
  | [] => .ok []
  | s :: ss =>
    match parse s with
    | .error e => .error e
    | .ok d =>
      match parseAll parse ss with
      | .error e => .error e
      | .ok ds => .ok (d :: ds)

/-- All entries of the config document parsed in section order (main,
optional, indirect, lock), with no deduplication. -/
def configEntries (doc : TomlDoc) : Except String (List Dep) :=
  match parseAll (fromString · none) doc.dependencies with
  | .error e => .error e
  | .ok a =>
    match doc.optionalDependencies.foldr
        (fun gs (acc : Except String (List Dep)) =>
          match parseAll (fromString · (some gs.1)) gs.2, acc with
          | Except.error e, _ => Except.error e
          | Except.ok _, Except.error e => Except.error e
          | Except.ok b, Except.ok bs => Except.ok (b ++ bs)) (Except.ok []) with
    | .error e => .error e
    | .ok b =>
      match parseAll fromCompositeString doc.indirectDependencies with
      | .error e => .error e
      | .ok c =>
        match parseAll fromLockString doc.dependencyLock with
        | .error e => .error e
        | .ok d => .ok (a ++ b ++ c ++ d)

/-- The optional-dependencies part of `configEntries`: parse every group in
order and concatenate. -/
def groupsParse (groups : List (String × List String)) :
    Except String (List Dep) :=
  groups.foldr
    (fun gs (acc : Except String (List Dep)) =>
      match parseAll (fromString · (some gs.1)) gs.2, acc with
      | Except.error e, _ => Except.error e
      | Except.ok _, Except.error e => Except.error e
      | Except.ok b, Except.ok bs => Except.ok (b ++ bs)) (Except.ok [])

/-- The requirement-string grammar as the spec states it (§6): after
stripping whitespace and parentheses, `name [constraints] [; marker]`, where
the constraints are a comma-separated list of `<op><version>` with `op` one
of `==`, `>=`, `<=`.  This definition follows the spec's words, for
comparison with the behaviour of `from_string`. -/
def specRequirementOk (string : String) : Bool :=
  let stripped := string.data.filter (fun c => c ≠ ' ' && c ≠ '(' && c ≠ ')')
  let beforeMarker := (splitOnL ";".data stripped).headD []
  let name := beforeMarker.takeWhile nameChar
  let rest := beforeMarker.dropWhile nameChar
  ¬ name.isEmpty && (rest.isEmpty ||
    (splitOnL ",".data rest).all (fun c =>
      operatorList.any (fun op => op.str.data.isPrefixOf c)))

/-- A registry serving only `foo`, for exercising the child loop on
malformed `requires_dist` entries. -/
def regFoo : Registry := fun n =>
  if lowerStr n == "foo" then some ⟨"foo", "0.1", "", []⟩ else none

/-- A one-package state whose direct dependency is the root `Top`. -/
def cfgTop : Cfg :=
  { dependencies := [{ name := "Top", version := "1" }] }

/-- A registry whose sole package carries one `requires_dist` entry that is
malformed (no leading name character) but contains a `";"` marker. -/
def regBadMarker : Registry := fun n =>
  if lowerStr n == "top" then some ⟨"Top", "1", "", ["### ; x"]⟩ else none

/-- The node `add Top` creates against `regBadMarker`. -/
def depTopBad : Dep :=
  { name := "Top", version := "1", sha256 := "",
    requires_dist := ["### ; x"] }

def cfgTopBad : Cfg := { dependencies := [depTopBad] }

/-- A registry whose sole package requires only a `";"`-marked entry naming
a package the registry cannot even serve. -/
def regMarker : Registry := fun n =>
  if lowerStr n == "aaa" then some ⟨"Aaa", "1", "", ["Ccc ; extra == x"]⟩
  else none

/-- The node `add Aaa` creates against `regMarker`. -/
def depAonly : Dep :=
  { name := "Aaa", version := "1", sha256 := "",
    requires_dist := ["Ccc ; extra == x"] }

def cfgAonly : Cfg := { dependencies := [depAonly] }

/-- A registry with the chain `Aaa` requires `Bbb` requires `Ccc`. -/
def regChain : Registry := fun n =>
  if lowerStr n == "aaa" then some ⟨"Aaa", "1", "", ["Bbb"]⟩
  else if lowerStr n == "bbb" then some ⟨"Bbb", "1", "", ["Ccc"]⟩
  else if lowerStr n == "ccc" then some ⟨"Ccc", "1", "", []⟩
  else none

/-- The chain nodes: `Aaa` direct, `Bbb` and `Ccc` indirect, each needed by
the previous one. -/
def depChainA : Dep :=
  { name := "Aaa", version := "1", sha256 := "", requires_dist := ["Bbb"] }

def depChainB : Dep :=
  { name := "Bbb", version := "1", needed_by := [⟨"Aaa", "1", .equal⟩],
    sha256 := "", requires_dist := ["Ccc"] }

def depChainC : Dep :=
  { name := "Ccc", version := "1", needed_by := [⟨"Bbb", "1", .equal⟩],
    sha256 := "" }

/-- The chain graph (as loaded from a persisted config): `Aaa` direct,
`Bbb` and `Ccc` indirect. -/
def cfgChain : Cfg :=
  { dependencies := [depChainA],
    indirect_dependencies := [depChainB, depChainC] }

/-- A diamond for the cascade scenario: roots `PkgA` and `PkgB`, indirect
node `LibC` needed by exactly both roots. -/
def refC2A : Ref := ⟨"PkgA", "1", .equal⟩

def refC2B : Ref := ⟨"PkgB", "1", .equal⟩

def depC2A : Dep := { name := "PkgA", version := "1", sha256 := "" }

def depC2B : Dep := { name := "PkgB", version := "1", sha256 := "" }

def depC2C : Dep :=
  { name := "LibC", version := "1", needed_by := [refC2A, refC2B],
    sha256 := "" }

def cfgC2 : Cfg :=
  { dependencies := [depC2A, depC2B], indirect_dependencies := [depC2C] }

/-- The cascade state after `remove PkgA`: `LibC` survives, needed only by
`PkgB`. -/
def depC2C1 : Dep :=
  { name := "LibC", version := "1", needed_by := [refC2B], sha256 := "" }

def cfgC2mid : Cfg :=
  { dependencies := [depC2B], indirect_dependencies := [depC2C1] }

/-- The state after `remove PkgA; remove PkgB`: everything is gone. -/
def cfgC2end : Cfg := {}

/-- A direct dependency whose recorded sha256 is a real hash rather than the
class default. -/
def depC3 : Dep :=
  { name := "Werkzeug", version := "2.2.2", sha256 := "f979" }

def gC3 : List Dep := [depC3]

/-- An optional-grouped dependency for the round-trip witness. -/
def depC3o : Dep :=
  { name := "Pytest", version := "7.1", optional := some "dev",
    sha256 := "aa11" }

/-- An indirect dependency for the round-trip witness. -/
def depC3i : Dep :=
  { name := "MarkupSafe", version := "2.1.1",
    needed_by := [⟨"Werkzeug", "2.2.2", .equal⟩], sha256 := "86b1" }

/-- A graph with all three kinds of nodes. -/
def gC3w : List Dep := [depC3, depC3o, depC3i]

/-- A registry is name-faithful when the canonical name it reports agrees
with the queried name up to case — the documented PyPI behaviour the
resolver relies on when it checks `config.all` before fetching. -/
def GoodReg (reg : Registry) : Prop :=
  ∀ n i, reg n = some i → lowerStr i.name = lowerStr n

/-- The shape relation that `_cleanup_indirect` preserves: the direct and
optional sections are untouched, and the lower-cased names of the indirect
section form a sublist of what they were. -/
def CleanShape (s s' : Cfg) : Prop :=
  s'.dependencies = s.dependencies ∧
  s'.optional_dependencies = s.optional_dependencies ∧
  (s'.indirect_dependencies.map (fun d => lowerStr d.name)).Sublist
    (s.indirect_dependencies.map (fun d => lowerStr d.name))

/-- The state after `remove` has dropped `pkg` from the direct set and from
every optional group (groups that become empty are deleted), before the
indirect cleanup runs. -/
def removeRootSections (pkg : String) (s : Cfg) : Cfg :=
  { dependencies := s.dependencies.filter (fun d => lowerStr d.name ≠ pkg),
    optional_dependencies :=
      (s.optional_dependencies.map (fun gd =>
        (gd.1, gd.2.filter (fun d => lowerStr d.name ≠ pkg)))).filter (fun gd =>
          gd.2 ≠ []),
    indirect_dependencies := s.indirect_dependencies }

/-- The state after `update markupsafe` on the Werkzeug graph: a second
`MarkupSafe` node appears in the direct section while the indirect one
remains. -/
def depMdirect : Dep :=
  { name := "MarkupSafe", version := "2.1.1", sha256 := "86b1" }

def cfgWupdated : Cfg :=
  { dependencies := [depW, depMdirect], indirect_dependencies := [depM] }

/-- The state `add MarkupSafe` produces from empty against `regW`:
`MarkupSafe` has no requirements, so its resolution reaches no child entry
and succeeds. -/
def cfgM : Cfg := { dependencies := [depMdirect] }

/-- The graph-level invariant: no two nodes share a lower-cased name, and
the optional groups have pairwise distinct names. -/
def GraphInv (s : Cfg) : Prop :=
  s.all.Nodup ∧ (s.optional_dependencies.map Prod.fst).Nodup

/-- States reachable from the empty graph through the installer commands. -/
inductive Reachable (reg : Registry) : Cfg → Prop where
  | empty : Reachable reg {}
  | add (fuel : Nat) (pkg : String) (opt : Option String) (s s' : Cfg)
      (msgs : List String) : Reachable reg s →
      addPkg reg fuel pkg opt s = some (s', msgs) → Reachable reg s'
  | update (fuel : Nat) (pkg : String) (s s' : Cfg) (msgs : List String) :
      Reachable reg s → updatePkg reg fuel pkg s = some (s', msgs) →
      Reachable reg s'
  | remove (pkg : String) (s s' : Cfg) (l msgs : List String) :
      Reachable reg s → removePkg false pkg s = some (s', l, msgs) →
      Reachable reg s'

/-- States reachable through `add` and `remove` only. -/
inductive ReachableAR (reg : Registry) : Cfg → Prop where
  | empty : ReachableAR reg {}
  | add (fuel : Nat) (pkg : String) (opt : Option String) (s s' : Cfg)
      (msgs : List String) : ReachableAR reg s →
      addPkg reg fuel pkg opt s = some (s', msgs) → ReachableAR reg s'
  | remove (pkg : String) (s s' : Cfg) (l msgs : List String) :
      ReachableAR reg s → removePkg false pkg s = some (s', l, msgs) →
      ReachableAR reg s'

/-- The lower-cased names of the indirect section. -/
def indNames (s : Cfg) : List String :=
  s.indirect_dependencies.map (fun d => lowerStr d.name)

/-- The correctness package for one `_cleanup_indirect pkg` call that
returned `(s', l)`: every surviving indirect node still has requirers, none
of which is `pkg` or any name in `l`; the names in `l` are nodes that were
present and are gone; every node that disappeared is listed in `l`; and
every survivor is an original node with a subset of its old `needed_by`. -/
def CleanupOk (pkg : String) (s s' : Cfg) (l : List String) : Prop :=
  (∀ d' ∈ s'.indirect_dependencies, d'.needed_by ≠ [] ∧
    ∀ r ∈ d'.needed_by, lowerStr r.name ≠ pkg ∧ lowerStr r.name ∉ l) ∧
  (∀ n ∈ l, n ∈ indNames s ∧ n ∉ indNames s') ∧
  (∀ d ∈ s.indirect_dependencies, lowerStr d.name ∉ indNames s' →
    lowerStr d.name ∈ l) ∧
  (∀ d' ∈ s'.indirect_dependencies, ∃ d ∈ s.indirect_dependencies,
    lowerStr d'.name = lowerStr d.name ∧ d'.needed_by.Sublist d.needed_by)

theorem installFuel_succ (reg : Registry) (fuel : Nat) (dep : Dep)
    (optional : Option String) (s : Cfg) :
    installFuel reg (fuel + 1) dep optional s =
    match reg dep.name with
    | none => none
    | some info =>
      installChildren reg fuel (applyPypiInfo dep info) optional
        (insertNode s optional (applyPypiInfo dep info))
        (applyPypiInfo dep info).requires_dist := rfl

theorem cleanupFuel_succ (fuel : Nat) (package : String) (s : Cfg) :
    cleanupFuel (fuel + 1) package s =
    s.indirect_dependencies.foldl (cleanupStep fuel package) (some (s, [])) := rfl

/-- Marker entries are no-ops on the accumulator of the child loop. -/
theorem installChild_marker (reg : Registry) (fuel : Nat) (dep : Dep)
    (optional : Option String) (acc : Option Cfg) (str : String)
    (h : isInfixL ";".data str.data = true) :
    installChild reg fuel dep optional acc str = acc := by
  cases acc with
  | none => rfl
  | some s => simp [installChild, h]

/-- The child loop ignores marker entries: folding over the filtered list
gives the same result. -/
theorem installChildren_filter_marker (reg : Registry) (fuel : Nat) (dep : Dep)
    (optional : Option String) (acc : Option Cfg) (entries : List String) :
    entries.foldl (installChild reg fuel dep optional) acc =
    (entries.filter (fun e => ¬ isInfixL ";".data e.data)).foldl
      (installChild reg fuel dep optional) acc := by
  induction entries generalizing acc with
  | nil => rfl
  | cons e rest ih =>
    by_cases h : isInfixL ";".data e.data = true
    · simp only [List.foldl_cons, List.filter_cons, h, installChild_marker _ _ _ _ _ _ h]
      simpa using ih acc
    · simp only [List.foldl_cons, List.filter_cons, eq_false_of_ne_true h]
      simpa using ih (installChild reg fuel dep optional acc e)

theorem installChildren_none (reg : Registry) (fuel : Nat) (dep : Dep)
    (optional : Option String) (entries : List String) :
    entries.foldl (installChild reg fuel dep optional) none = none := by
  induction entries with
  | nil => rfl
  | cons e rest ih => simpa [installChild] using ih

/-- A non-marker entry aborts the whole child loop, wherever it sits:
either its parse raises, or the parsed object's `needed_by.add` raises
`AttributeError`. -/
theorem installChildren_abort (reg : Registry) (fuel : Nat) (dep : Dep)
    (optional : Option String) : ∀ (entries : List String) (acc : Option Cfg)
    (e : String), e ∈ entries → isInfixL ";".data e.data = false →
    entries.foldl (installChild reg fuel dep optional) acc = none := by
  intro entries
  induction entries with
  | nil => intro acc e he; cases he
  | cons a rest ih =>
    intro acc e he hm
    rw [List.foldl_cons]
    rcases List.mem_cons.mp he with rfl | her
    · have hstep : installChild reg fuel dep optional acc e = none := by
        cases acc with
        | none => rfl
        | some s =>
          unfold installChild
          simp only [hm, Bool.false_eq_true, if_false]
          cases fromString e <;> rfl
      rw [hstep]
      exact installChildren_none reg fuel dep optional rest
    · cases hstep : installChild reg fuel dep optional acc a with
      | none => exact installChildren_none reg fuel dep optional rest
      | some t => exact ih _ e her hm

/-- C9 counterexample: sibling non-marker entries are *not* resolved — they
abort the entire resolve.  Against `regSibling`, whose root `Aaa` requires
the marked entry `"Ccc ; extra == x"` and the plain sibling `"Ddd"`,
`add Aaa` fails outright: handling `"Ddd"` raises `AttributeError` at
`new_dependency.needed_by.add(dependency)` (installer.py:205; `needed_by`
is a plain list, dependency.py:45), so no state with a `ddd` node is ever
produced. -/
theorem claim_C9_counterexample :
    addPkg regSibling 10 "Aaa" none {} = none := by decide

/-- C9 amended: a `requiresDist` entry containing `";"` is skipped entirely
— the child loop of `_install` behaves as if the entry were absent, so no
node is created for it and it is never recursively resolved (conjunct 1:
resolution over any entry list equals resolution over the list with all
marker entries dropped; conjunct 2: a root whose only requirement is a
marked entry naming a package the registry cannot even serve installs
successfully, producing a node for the root alone).  But sibling non-marker
entries are not resolved either: any such entry aborts the entire resolve
call (conjunct 3) — when its parse succeeds, via the `AttributeError` from
`needed_by.add` on a plain list (installer.py:205, dependency.py:45), and
otherwise via the parse exception. -/
theorem claim_C9_amended :
    (∀ (reg : Registry) (fuel : Nat) (dep : Dep) (optional : Option String)
      (s : Cfg) (entries : List String),
      installChildren reg fuel dep optional s entries =
      installChildren reg fuel dep optional s
        (entries.filter (fun e => ¬ isInfixL ";".data e.data))) ∧
    (addPkg regMarker 10 "Aaa" none {}).map (fun r =>
      r.1.allDeps.map (fun d => lowerStr d.name)) = some ["aaa"] ∧
    (∀ (reg : Registry) (fuel : Nat) (dep : Dep) (optional : Option String)
      (s : Cfg) (entries : List String) (e : String),
      e ∈ entries → isInfixL ";".data e.data = false →
      installChildren reg fuel dep optional s entries = none) := by
  refine ⟨?_, by decide, ?_⟩
  · intro reg fuel dep optional s entries
    exact installChildren_filter_marker reg fuel dep optional (some s) entries
  · intro reg fuel dep optional s entries e he hm
    exact installChildren_abort reg fuel dep optional entries (some s) e he hm

/-- Witness for the amended C9: conjunct 3 on `regSibling`'s entry list,
whose sibling `"Ddd"` aborts the loop. -/
theorem claim_C9_witness :
    installChildren regSibling 5 depAonly none cfgTop
      ["Ccc ; extra == x", "Ddd"] = none :=
  claim_C9_amended.2.2 regSibling 5 depAonly none cfgTop
    ["Ccc ; extra == x", "Ddd"] "Ddd" (by decide) (by decide)

theorem loadSection_eq (parse : String → Except String Dep) (strs : List String)
    (l : List Dep) :
    loadSection parse l strs =
    match parseAll parse strs with
    | .error e => .error e
    | .ok es => .ok (es.foldl addIfNew l) := by
  induction strs generalizing l with
  | nil => rfl
  | cons s ss ih =>
    cases h : parse s with
    | error e => simp [loadSection, parseAll, h]
    | ok d =>
      simp only [loadSection, parseAll, h]
      rw [ih (addIfNew l d)]
      cases parseAll parse ss with
      | error e => rfl
      | ok ds => rfl

theorem loadGroups_eq (groups : List (String × List String)) (l : List Dep) :
    loadGroups l groups =
    match groups.foldr
        (fun gs (acc : Except String (List Dep)) =>
          match parseAll (fromString · (some gs.1)) gs.2, acc with
          | Except.error e, _ => Except.error e
          | Except.ok _, Except.error e => Except.error e
          | Except.ok b, Except.ok bs => Except.ok (b ++ bs)) (Except.ok []) with
    | .error e => .error e
    | .ok es => .ok (es.foldl addIfNew l) := by
  induction groups generalizing l with
  | nil => rfl
  | cons g gs ih =>
    cases hg : parseAll (fromString · (some g.1)) g.2 with
    | error e => simp [loadGroups, List.foldr_cons, loadSection_eq, hg]
    | ok b =>
      simp only [loadGroups, List.foldr_cons, loadSection_eq, hg]
      rw [ih (b.foldl addIfNew l)]
      cases gs.foldr
          (fun gs (acc : Except String (List Dep)) =>
            match parseAll (fromString · (some gs.1)) gs.2, acc with
            | Except.error e, _ => Except.error e
            | Except.ok _, Except.error e => Except.error e
            | Except.ok b, Except.ok bs => Except.ok (b ++ bs)) (Except.ok []) with
      | error e => rfl
      | ok bs => simp [List.foldl_append]

theorem configLoad_eq_dedup (doc : TomlDoc) :
    configLoad doc =
    match configEntries doc with
    | .error e => .error e
    | .ok es => .ok (es.foldl addIfNew []) := by
  simp only [configLoad, configEntries, loadSection_eq, loadGroups_eq]
  cases parseAll (fromString · none) doc.dependencies with
  | error e => rfl
  | ok a =>
    cases doc.optionalDependencies.foldr
        (fun gs (acc : Except String (List Dep)) =>
          match parseAll (fromString · (some gs.1)) gs.2, acc with
          | Except.error e, _ => Except.error e
          | Except.ok _, Except.error e => Except.error e
          | Except.ok b, Except.ok bs => Except.ok (b ++ bs)) (Except.ok []) with
    | error e => rfl
    | ok b =>
      cases parseAll fromCompositeString doc.indirectDependencies with
      | error e => rfl
      | ok c =>
        cases parseAll fromLockString doc.dependencyLock with
        | error e => rfl
        | ok d => simp [List.foldl_append]

theorem addIfNew_names_nodup (l : List Dep) (d : Dep)
    (h : (l.map (fun x => lowerStr x.name)).Nodup) :
    ((addIfNew l d).map (fun x => lowerStr x.name)).Nodup := by
  unfold addIfNew
  by_cases hm : l.any (·.eqName d) = true
  · simpa [hm] using h
  · have hni : lowerStr d.name ∉ l.map (fun x => lowerStr x.name) := by
      intro hmem
      apply hm
      simp only [List.mem_map] at hmem
      obtain ⟨x, hx, hxe⟩ := hmem
      exact List.any_eq_true.mpr ⟨x, hx, by simp [Dep.eqName, hxe]⟩
    have hall : ∀ x ∈ l, ¬ lowerStr x.name = lowerStr d.name := by
      intro x hx heq
      exact hni (List.mem_map.mpr ⟨x, hx, heq⟩)
    simp only [hm, if_neg, ite_false, List.map_append, List.map_cons, List.map_nil]
    simpa [List.nodup_append] using ⟨h, hall⟩

theorem dedup_names_nodup (es : List Dep) :
    (((es.foldl addIfNew []).map (fun x => lowerStr x.name))).Nodup := by
  suffices h : ∀ l, ((l.map (fun x : Dep => lowerStr x.name)).Nodup) →
      (((es.foldl addIfNew l).map (fun x => lowerStr x.name))).Nodup by
    exact h [] (by simp)
  induction es with
  | nil => intro l hl; simpa using hl
  | cons e es ih =>
    intro l hl
    exact ih (addIfNew l e) (addIfNew_names_nodup l e hl)

/-- C10: `Dependency.__eq__` holds exactly when the two names agree after
lower-casing — every other field is ignored — and `Config.__init__`'s
membership-based deduplication therefore keeps, across all four sections in
order, only the first entry seen for each lower-cased name.  Conjuncts:
(1) the equality characterization; (2) loading equals parsing every section
entry in order and folding the keep-first insertion over it; (3) hence no
two loaded entries share a lower-cased name; (4) a lock entry `foo>=2.0`
with a different version, operator and hash is dropped in favour of the
`Foo==1.0` seen first. -/
theorem claim_C10_eq_by_name_and_first_entry_dedup :
    (∀ a b : Dep, a.eqName b = true ↔ lowerStr a.name = lowerStr b.name) ∧
    (∀ doc : TomlDoc, configLoad doc =
      match configEntries doc with
      | .error e => .error e
      | .ok es => .ok (es.foldl addIfNew [])) ∧
    (∀ (doc : TomlDoc) (l : List Dep), configLoad doc = .ok l →
      (l.map (fun d => lowerStr d.name)).Nodup) ∧
    configLoad { dependencies := ["Foo==1.0"],
                 dependencyLock := ["foo>=2.0 :: abc"] } =
      .ok [{ name := "Foo", version := "1.0" }] := by
  refine ⟨?_, configLoad_eq_dedup, ?_, by decide⟩
  · intro a b
    simp [Dep.eqName]
  · intro doc l h
    rw [configLoad_eq_dedup] at h
    cases he : configEntries doc with
    | error e => rw [he] at h; cases h
    | ok es =>
      rw [he] at h
      cases h
      exact dedup_names_nodup es

/-- Witness for C10: conjunct (3) applied to a concrete document. -/
theorem claim_C10_witness :
    (([{ name := "Foo", version := "1.0" }] : List Dep).map
      (fun d => lowerStr d.name)).Nodup :=
  claim_C10_eq_by_name_and_first_entry_dedup.2.2.1
    { dependencies := ["Foo==1.0"], dependencyLock := ["foo>=2.0 :: abc"] }
    [{ name := "Foo", version := "1.0" }] (by decide)

/-- C8 counterexample: a malformed entry *is* silently skipped when it
contains a `";"`: `"### ; x"` fails the spec's requirement grammar (it has
no leading name character), yet against `regBadMarker` — whose only
`requires_dist` entry it is — `add Top` succeeds with the entry ignored:
no abort, no error of any kind.  The claim that malformed entries are never
silently skipped is false. -/
theorem claim_C8_counterexample :
    specRequirementOk "### ; x" = false ∧
    addPkg regBadMarker 5 "Top" none {} = some (cfgTopBad, []) := by
  refine ⟨by decide, by decide⟩

/-- C8 amended: an entry containing `";"` is silently skipped whether or
not it matches the grammar, and raises nothing (conjunct 1: the child step
raises no error exactly on marker entries).  Every entry without `";"`
aborts the enclosing resolve call (conjunct 2), and the abort propagates —
the loop has no handler, nothing is swallowed — but it is never a
descriptive malformed-requirement error: when `from_string` raises, that
exception is the abort (conjunct 3) — `"==1.0"` has no leading name
(conjunct 5) and `"foo>=1.0==2.0"` dies as an `IndexError` (conjunct 6) —
and when the entry parses, grammatical or not, the abort is the
`AttributeError` from `new_dependency.needed_by.add(dependency)` on a
plain list (installer.py:205, dependency.py:45; conjunct 4); in particular
the non-grammar `"foo<2.0"` is accepted by `from_string` with the
constraint ignored (conjunct 7) and then aborts like every other parseable
entry. -/
theorem claim_C8_amended :
    (∀ (entry : String), childError entry = none ↔
      isInfixL ";".data entry.data = true) ∧
    (∀ (reg : Registry) (fuel : Nat) (dep : Dep) (optional : Option String)
      (s : Cfg) (entries : List String) (e : String),
      e ∈ entries → isInfixL ";".data e.data = false →
      installChildren reg fuel dep optional s entries = none) ∧
    (∀ (entry msg : String), isInfixL ";".data entry.data = false →
      fromString entry = .error msg → childError entry = some msg) ∧
    (∀ (entry : String) (d : Dep), isInfixL ";".data entry.data = false →
      fromString entry = .ok d → childError entry =
        some "AttributeError: 'list' object has no attribute 'add'") ∧
    fromString "==1.0" = .error ("Unknown dependency string: ==1.0") ∧
    fromString "foo>=1.0==2.0" = .error "IndexError: list index out of range" ∧
    fromString "foo<2.0" = .ok { name := "foo" } := by
  refine ⟨?_, ?_, ?_, ?_, by decide, by decide, by decide⟩
  · intro entry
    unfold childError
    by_cases hm : isInfixL ";".data entry.data = true
    · simp [hm]
    · have hm' : isInfixL ";".data entry.data = false := by simpa using hm
      simp only [hm', Bool.false_eq_true, if_false]
      cases fromString entry <;> simp [hm']
  · intro reg fuel dep optional s entries e he hm
    exact installChildren_abort reg fuel dep optional entries (some s) e he hm
  · intro entry msg hm hp
    unfold childError
    simp only [hm, Bool.false_eq_true, if_false, hp]
  · intro entry d hm hp
    unfold childError
    simp only [hm, Bool.false_eq_true, if_false, hp]

/-- Witness for the amended C8: conjunct 2 aborts the loop on the parseable
non-grammar entry `"foo<2.0"`, and conjunct 4 identifies its abort as the
`AttributeError`. -/
theorem claim_C8_witness :
    installChildren regFoo 5 { name := "Top", version := "1" } none cfgTop
      ["foo<2.0"] = none ∧
    childError "foo<2.0" =
      some "AttributeError: 'list' object has no attribute 'add'" :=
  ⟨claim_C8_amended.2.1 regFoo 5 { name := "Top", version := "1" } none
      cfgTop ["foo<2.0"] "foo<2.0" (by decide) (by decide),
    claim_C8_amended.2.2.2.1 "foo<2.0" { name := "foo" } (by decide)
      (by decide)⟩

/-- C1 counterexample: the diamond never accumulates anything — the very
first `add` aborts.  Against `regDiamond` (`Aaa` and `Bbb` both require
`Ccc`), `add Aaa` fails: handling the non-marker entry `"Ccc"` raises
`AttributeError` at `new_dependency.needed_by.add(dependency)`
(installer.py:205; `needed_by` is a plain list, dependency.py:45) before
the `config.all` membership check, so no state containing a `Ccc` node —
with one requirer or two — is ever produced, and `add Aaa; add Bbb`
likewise yields nothing. -/
theorem claim_C1_counterexample :
    addPkg regDiamond 10 "Aaa" none {} = none ∧
    (addPkg regDiamond 10 "Aaa" none {}).bind (fun r =>
      addPkg regDiamond 10 "Bbb" none r.1) = none := by
  refine ⟨by decide, by decide⟩

/-- C1 amended: no resolution ever reaches the short-circuit path, so
shared dependencies accumulate no requirers at all: whenever the fetched
metadata of a package lists any `requires_dist` entry without a `";"`
marker, the whole `_install` call aborts — the parsed child's
`needed_by.add` raises `AttributeError` on a plain list before the
membership check and before any recursion — and consequently the diamond
resolution A→C, B→C crashes on its first edge instead of producing a node
for C. -/
theorem claim_C1_amended (reg : Registry) (fuel : Nat) (dep : Dep)
    (optional : Option String) (s : Cfg) (info : PypiInfo) (e : String)
    (hreg : reg dep.name = some info) (he : e ∈ info.requires_dist)
    (hm : isInfixL ";".data e.data = false) :
    installFuel reg (fuel + 1) dep optional s = none := by
  rw [installFuel_succ]
  simp only [hreg]
  exact installChildren_abort reg fuel (applyPypiInfo dep info) optional
    (applyPypiInfo dep info).requires_dist _ e he hm

/-- Witness for the amended C1: the first diamond edge, concretely. -/
theorem claim_C1_witness :
    installFuel regDiamond 5 (Dep.mkNamed "Aaa") none {} = none :=
  claim_C1_amended regDiamond 4 (Dep.mkNamed "Aaa") none {}
    ⟨"Aaa", "1", "", ["Ccc"]⟩ "Ccc" (by decide) (by decide) (by decide)

/-- C6 counterexample: `bbb` is present only as an indirect dependency of
the chain state (the direct section holds only `aaa`), yet `remove bbb`
does not fail with a not-installed message: it proceeds silently, mutates
the graph (cascading `Ccc` away while keeping the `Bbb` node itself) and
reports `["bbb", "ccc"]` as removed. -/
theorem claim_C6_counterexample :
    cfgChain.dependencies.map (fun d => lowerStr d.name) = ["aaa"] ∧
    cfgChain.all.contains "bbb" = true ∧
    removePkg false "bbb" cfgChain =
      some ({ dependencies := [depChainA],
              indirect_dependencies := [depChainB] }, ["bbb", "ccc"], []) := by
  refine ⟨by decide, by decide, by decide⟩

/-- C6 amended: `remove` and `update` fail with the not-installed user
message — returning the state unchanged, with no removal list and no save —
exactly for names absent from `config.all` entirely (looked up by
lower-cased name).  A name present only as an indirect dependency is *not*
rejected: `remove` proceeds without any message, leaves the node itself in
place (its `needed_by` is non-empty) but prunes the `needed_by` references
it holds on others, cascading away nodes only it needed, and saves.
Conjuncts: (1) `remove` of an absent name; (2) `update` of an absent name;
(3) the chain scenario concretely. -/
theorem claim_C6_amended :
    (∀ (pkg : String) (s : Cfg), s.all.contains (lowerStr pkg) = false →
      removePkg false pkg s =
        some (s, [], ["Package " ++ lowerStr pkg ++ " is not installed!"])) ∧
    (∀ (reg : Registry) (fuel : Nat) (pkg : String) (s : Cfg),
      s.all.contains (lowerStr pkg) = false →
      updatePkg reg fuel pkg s =
        some (s, ["Package " ++ lowerStr pkg ++ " is not installed!"])) ∧
    removePkg false "bbb" cfgChain =
      some ({ dependencies := [depChainA],
              indirect_dependencies := [depChainB] }, ["bbb", "ccc"], []) := by
  refine ⟨?_, ?_, by decide⟩
  · intro pkg s h
    have hn : lowerStr pkg ∉ s.all := by simpa using h
    simp [removePkg, hn]
  · intro reg fuel pkg s h
    have hn : lowerStr pkg ∉ s.all := by simpa using h
    simp [updatePkg, hn]

/-- Witness for the amended C6: conjuncts (1) and (2) applied to a name the
chain state does not contain. -/
theorem claim_C6_witness :
    removePkg false "ghost" cfgChain =
      some (cfgChain, [], ["Package ghost is not installed!"]) ∧
    updatePkg regChain 5 "ghost" cfgChain =
      some (cfgChain, ["Package ghost is not installed!"]) :=
  ⟨claim_C6_amended.1 "ghost" cfgChain (by decide),
   claim_C6_amended.2.1 regChain 5 "ghost" cfgChain (by decide)⟩

theorem addSet_names_sub (l : List Dep) (d : Dep) :
    ∀ n, n ∈ l.map (fun x => lowerStr x.name) →
      n ∈ (addSet l d).map (fun x => lowerStr x.name) := by
  intro n hn
  unfold addSet
  split
  · exact hn
  · simp only [List.map_append]
    exact List.mem_append_left _ hn

theorem addSet_names_self (l : List Dep) (d : Dep) :
    lowerStr d.name ∈ (addSet l d).map (fun x => lowerStr x.name) := by
  unfold addSet
  split
  · rename_i h
    obtain ⟨x, hx, hxe⟩ := List.any_eq_true.mp h
    have : lowerStr x.name = lowerStr d.name := by
      simpa [Dep.eqName] using hxe
    exact List.mem_map.mpr ⟨x, hx, this⟩
  · simp

theorem addDepToGroup_names_sub (groups : List (String × List Dep)) (g : String)
    (d : Dep) : ∀ n,
    n ∈ ((groups.map Prod.snd).flatten.map (fun x => lowerStr x.name)) →
    n ∈ (((addDepToGroup groups g d).map Prod.snd).flatten.map
      (fun x => lowerStr x.name)) := by
  intro n hn
  obtain ⟨x, hxmem, hxn⟩ := List.mem_map.mp hn
  obtain ⟨l, hl, hxl⟩ := List.mem_flatten.mp hxmem
  obtain ⟨gd, hgd, hsnd⟩ := List.mem_map.mp hl
  unfold addDepToGroup
  split
  · by_cases hg : gd.1 = g
    · refine List.mem_map.mpr ⟨x, List.mem_flatten.mpr ⟨addSet gd.2 d, ?_, ?_⟩, hxn⟩
      · refine List.mem_map.mpr ⟨(gd.1, addSet gd.2 d), ?_, rfl⟩
        refine List.mem_map.mpr ⟨gd, hgd, by simp [hg]⟩
      · rw [← hsnd] at hxl
        unfold addSet
        split
        · exact hxl
        · exact List.mem_append_left _ hxl
    · refine List.mem_map.mpr ⟨x, List.mem_flatten.mpr ⟨l, ?_, hxl⟩, hxn⟩
      refine List.mem_map.mpr ⟨gd, ?_, hsnd⟩
      exact List.mem_map.mpr ⟨gd, hgd, by simp [hg]⟩
  · simp only [List.map_append, List.flatten_append]
    exact List.mem_append_left _ hn

theorem addDepToGroup_names_self (groups : List (String × List Dep))
    (g : String) (d : Dep) :
    lowerStr d.name ∈ (((addDepToGroup groups g d).map Prod.snd).flatten.map
      (fun x => lowerStr x.name)) := by
  unfold addDepToGroup
  split
  · rename_i h
    obtain ⟨gd, hgd, hge⟩ := List.any_eq_true.mp h
    have hg : gd.1 = g := by simpa using hge
    obtain ⟨x, hx, hxe⟩ := List.mem_map.mp (addSet_names_self gd.2 d)
    refine List.mem_map.mpr ⟨x, ?_, hxe⟩
    refine List.mem_flatten.mpr ⟨addSet gd.2 d, ?_, hx⟩
    refine List.mem_map.mpr ⟨(gd.1, addSet gd.2 d), ?_, rfl⟩
    refine List.mem_map.mpr ⟨gd, hgd, by simp [hg]⟩
  · simp

theorem mem_all_iff (s : Cfg) (n : String) :
    n ∈ s.all ↔
      n ∈ s.dependencies.map (fun x => lowerStr x.name) ∨
      n ∈ ((s.optional_dependencies.map Prod.snd).flatten.map
        (fun x => lowerStr x.name)) ∨
      n ∈ s.indirect_dependencies.map (fun x => lowerStr x.name) := by
  simp [Cfg.all, Cfg.allDeps, List.map_append, List.mem_append, or_assoc]

theorem insertNode_all_sub (s : Cfg) (optional : Option String) (d : Dep) :
    ∀ n, n ∈ s.all → n ∈ (insertNode s optional d).all := by
  intro n hn
  rw [mem_all_iff] at hn
  rw [mem_all_iff]
  unfold insertNode
  rcases hn with h | h | h
  · split
    · exact Or.inl h
    · cases optional with
      | none => exact Or.inl (addSet_names_sub _ _ _ h)
      | some g => exact Or.inl h
  · split
    · exact Or.inr (Or.inl h)
    · cases optional with
      | none => exact Or.inr (Or.inl h)
      | some g => exact Or.inr (Or.inl (addDepToGroup_names_sub _ _ _ _ h))
  · split
    · exact Or.inr (Or.inr (addSet_names_sub _ _ _ h))
    · cases optional with
      | none => exact Or.inr (Or.inr h)
      | some g => exact Or.inr (Or.inr h)

theorem insertNode_all_self (s : Cfg) (optional : Option String) (d : Dep) :
    lowerStr d.name ∈ (insertNode s optional d).all := by
  rw [mem_all_iff]
  unfold insertNode
  split
  · exact Or.inr (Or.inr (addSet_names_self _ _))
  · cases optional with
    | none => exact Or.inl (addSet_names_self _ _)
    | some g => exact Or.inr (Or.inl (addDepToGroup_names_self _ _ _))

/-- Case analysis for one successful child step: either the entry was a
no-op (marker, or name already present), or it recursively installed some
parsed-and-parented dependency. -/
theorem installChild_some_cases (reg : Registry) (fuel : Nat) (dep : Dep)
    (optional : Option String) (t : Cfg) (e : String) (t' : Cfg)
    (h : installChild reg fuel dep optional (some t) e = some t') :
    t' = t ∨ ∃ nd, t.all.contains (lowerStr nd.name) = false ∧
      installFuel reg fuel nd optional t = some t' := by
  unfold installChild at h
  by_cases hm : isInfixL ";".data e.data = true
  · simp only [hm, if_true] at h
    exact Or.inl (Option.some.inj h).symm
  · have hm' : isInfixL ";".data e.data = false := by simpa using hm
    simp only [hm', Bool.false_eq_true, if_false] at h
    cases hp : fromString e with
    | error msg => simp [hp] at h
    | ok nd => simp [hp] at h

theorem installFuel_all_sub (reg : Registry) : ∀ (fuel : Nat) (dep : Dep)
    (optional : Option String) (s s' : Cfg),
    installFuel reg fuel dep optional s = some s' →
    ∀ n, n ∈ s.all → n ∈ s'.all := by
  intro fuel
  induction fuel with
  | zero => intro dep optional s s' h; cases h
  | succ f ih =>
    intro dep optional s s' h
    rw [installFuel_succ] at h
    cases hreg : reg dep.name with
    | none => rw [hreg] at h; cases h
    | some info =>
      simp only [hreg] at h
      rw [installChildren] at h
      have children : ∀ (entries : List String) (t t' : Cfg),
          entries.foldl (installChild reg f (applyPypiInfo dep info) optional)
            (some t) = some t' → ∀ n, n ∈ t.all → n ∈ t'.all := by
        intro entries
        induction entries with
        | nil => intro t t' ht n hn; cases ht; exact hn
        | cons e rest ihe =>
          intro t t' ht n hn
          rw [List.foldl_cons] at ht
          cases hstep : installChild reg f (applyPypiInfo dep info) optional
              (some t) e with
          | none =>
            rw [hstep, installChildren_none] at ht
            cases ht
          | some t₁ =>
            rw [hstep] at ht
            refine ihe t₁ t' ht n ?_
            rcases installChild_some_cases reg f _ optional t e t₁ hstep with
              heq | ⟨nd, _, hrec⟩
            · rw [heq]; exact hn
            · exact ih _ _ _ _ hrec n hn
      exact fun n hn =>
        children _ _ _ h n (insertNode_all_sub s optional _ n hn)

theorem installChildren_all_sub (reg : Registry) (fuel : Nat) (dep : Dep)
    (optional : Option String) (entries : List String) (t t' : Cfg)
    (h : installChildren reg fuel dep optional t entries = some t') :
    ∀ n, n ∈ t.all → n ∈ t'.all := by
  induction entries generalizing t with
  | nil => cases h; exact fun n hn => hn
  | cons e rest ihe =>
    intro n hn
    rw [installChildren, List.foldl_cons] at h
    cases hstep : installChild reg fuel dep optional (some t) e with
    | none => rw [hstep, installChildren_none] at h; cases h
    | some t₁ =>
      rw [hstep] at h
      refine ihe t₁ h n ?_
      rcases installChild_some_cases reg fuel dep optional t e t₁ hstep with
        heq | ⟨nd, _, hrec⟩
      · rw [heq]; exact hn
      · exact installFuel_all_sub reg fuel _ _ _ _ hrec n hn

theorem installFuel_contains_self (reg : Registry) (hg : GoodReg reg)
    (fuel : Nat) (dep : Dep) (optional : Option String) (s s' : Cfg)
    (h : installFuel reg fuel dep optional s = some s') :
    lowerStr dep.name ∈ s'.all := by
  cases fuel with
  | zero => cases h
  | succ f =>
    rw [installFuel_succ] at h
    cases hreg : reg dep.name with
    | none => rw [hreg] at h; cases h
    | some info =>
      simp only [hreg] at h
      have hname : lowerStr (applyPypiInfo dep info).name = lowerStr dep.name := by
        simpa [applyPypiInfo] using hg dep.name info hreg
      have hself := insertNode_all_self s optional (applyPypiInfo dep info)
      rw [hname] at hself
      exact installChildren_all_sub reg f _ optional _ _ _ h _ hself

/-- C5: adding a name already present (compared case-insensitively) prints
the already-installed message and returns the state unchanged — the
statement holds for every registry and every fuel, which shows no fetch is
performed and nothing is mutated or saved — and it is treated as success,
so running `add X` again after any successful `add X` (against a registry
whose canonical names agree with the queried names up to case) returns the
same state with the message: `add X; add X` equals `add X`. -/
theorem claim_C5_idempotent_add :
    (∀ (reg : Registry) (fuel : Nat) (x : String) (g : Option String) (s : Cfg),
      s.all.contains (lowerStr x) = true →
      addPkg reg fuel x g s =
        some (s, ["Package " ++ x ++ " is already installed"])) ∧
    (∀ (reg reg' : Registry) (fuel fuel' : Nat) (x : String)
      (g : Option String) (s₀ s : Cfg) (msgs : List String), GoodReg reg →
      addPkg reg fuel x g s₀ = some (s, msgs) →
      addPkg reg' fuel' x g s =
        some (s, ["Package " ++ x ++ " is already installed"])) := by
  have already : ∀ (reg : Registry) (fuel : Nat) (x : String)
      (g : Option String) (s : Cfg), s.all.contains (lowerStr x) = true →
      addPkg reg fuel x g s =
        some (s, ["Package " ++ x ++ " is already installed"]) := by
    intro reg fuel x g s h
    have hm : lowerStr x ∈ s.all := by simpa using h
    simp [addPkg, hm]
  refine ⟨already, ?_⟩
  intro reg reg' fuel fuel' x g s₀ s msgs hg h
  unfold addPkg at h
  by_cases hc : s₀.all.contains (lowerStr x) = true
  · rw [if_pos hc] at h
    obtain ⟨rfl, -⟩ := Prod.mk.injEq .. ▸ Option.some.inj h
    exact already reg' fuel' x g s₀ hc
  · rw [if_neg hc] at h
    cases hi : installFuel reg fuel (Dep.mkNamed x) g s₀ with
    | none => rw [hi] at h; cases h
    | some s₁ =>
      rw [hi] at h
      obtain ⟨rfl, -⟩ := Prod.mk.injEq .. ▸ Option.some.inj h
      have hmem : lowerStr x ∈ s₁.all :=
        installFuel_contains_self reg hg fuel (Dep.mkNamed x) g s₀ s₁ hi
      exact already reg' fuel' x g s₁ (by simpa using hmem)

/-- Witness for C5: the second `add` is a no-op with the message — first on
the Werkzeug-containing graph directly, then after an actual `add` of the
requirement-free `MarkupSafe` from the empty graph, under a different
registry and fuel than the first. -/
theorem claim_C5_witness :
    addPkg regChain 3 "Werkzeug" none cfgW =
      some (cfgW, ["Package Werkzeug is already installed"]) ∧
    addPkg regW 7 "MarkupSafe" none cfgM =
      some (cfgM, ["Package MarkupSafe is already installed"]) := by
  have hg : GoodReg regW := by
    intro n i h
    unfold regW at h
    by_cases h1 : (lowerStr n == "werkzeug") = true
    · simp only [h1, if_true] at h
      cases h
      rw [eq_of_beq h1]
      decide
    · simp only [h1] at h
      by_cases h2 : (lowerStr n == "markupsafe") = true
      · simp only [h2, if_true] at h
        cases h
        rw [eq_of_beq h2]
        decide
      · simp [h2] at h
  constructor
  · exact claim_C5_idempotent_add.1 regChain 3 "Werkzeug" none cfgW (by decide)
  · exact claim_C5_idempotent_add.2 regW regW 10 7 "MarkupSafe" none
      ({} : Cfg) cfgM [] hg (by decide)

theorem toLower_toLower (c : Char) : c.toLower.toLower = c.toLower := by
  by_cases h : c.toNat ≥ 65 ∧ c.toNat ≤ 90
  · have h1 : Char.toLower c = Char.ofNat (c.toNat + 32) := by
      unfold Char.toLower
      rw [if_pos h]
    have hv : Nat.isValidChar (c.toNat + 32) := Or.inl (by omega)
    have ht : (Char.ofNat (c.toNat + 32)).toNat = c.toNat + 32 := by
      rw [Char.ofNat, dif_pos hv]
      rfl
    rw [h1]
    unfold Char.toLower
    rw [if_neg]
    simp only [ht]
    omega
  · have h1 : Char.toLower c = c := by
      unfold Char.toLower
      rw [if_neg h]
    rw [h1, h1]

theorem lowerStr_idem (s : String) : lowerStr (lowerStr s) = lowerStr s := by
  simp only [lowerStr, List.map_map]
  congr 1
  refine List.map_congr_left ?_
  intro c _
  exact toLower_toLower c

/-- An aborted cleanup loop stays aborted. -/
theorem cleanupFoldl_none (fuel : Nat) (package : String) (snap : List Dep) :
    snap.foldl (cleanupStep fuel package) none = none := by
  induction snap with
  | nil => rfl
  | cons d rest ih => simpa [cleanupStep] using ih

theorem CleanShape.rfl (s : Cfg) : CleanShape s s :=
  ⟨Eq.refl _, Eq.refl _, List.Sublist.refl _⟩

theorem CleanShape.trans {s t u : Cfg} (h1 : CleanShape s t)
    (h2 : CleanShape t u) : CleanShape s u :=
  ⟨h2.1.trans h1.1, h2.2.1.trans h1.2.1, h2.2.2.trans h1.2.2⟩

theorem cleanupFuel_shape : ∀ (fuel : Nat) (package : String) (s s' : Cfg)
    (l : List String), cleanupFuel fuel package s = some (s', l) →
    CleanShape s s' := by
  intro fuel
  induction fuel with
  | zero => intro package s s' l h; cases h
  | succ f ih =>
    intro package s s' l h
    rw [cleanupFuel_succ] at h
    have step : ∀ (t : Cfg) (acc : List String) (d : Dep) (t' : Cfg)
        (acc' : List String),
        cleanupStep f package (some (t, acc)) d = some (t', acc') →
        CleanShape t t' := by
      intro t acc d t' acc' hstep
      unfold cleanupStep at hstep
      cases hfind : t.indirect_dependencies.find? (·.eqName d) with
      | some cur =>
        simp only [hfind] at hstep
        by_cases hnb :
            (cur.needed_by.filter
              (fun r => lowerStr r.name ≠ package)).isEmpty = true
        · rw [if_pos hnb] at hstep
          cases hrec : cleanupFuel f (lowerStr d.name) { t with indirect_dependencies := t.indirect_dependencies.eraseP (·.eqName d) } with
          | none => rw [hrec] at hstep; cases hstep
          | some r =>
            rw [hrec] at hstep
            obtain ⟨t₂, l₂⟩ := r
            cases hstep
            refine CleanShape.trans ?_ (ih _ _ _ _ hrec)
            refine ⟨Eq.refl _, Eq.refl _, ?_⟩
            exact (List.eraseP_sublist t.indirect_dependencies).map _
        · rw [if_neg hnb] at hstep
          cases hstep
          refine ⟨Eq.refl _, Eq.refl _, ?_⟩
          have : (t.indirect_dependencies.map (fun x =>
              if x.eqName d then { x with needed_by := cur.needed_by.filter (fun r => lowerStr r.name ≠ package) } else x)).map
                (fun d => lowerStr d.name) =
              t.indirect_dependencies.map (fun d => lowerStr d.name) := by
            rw [List.map_map]
            refine List.map_congr_left ?_
            intro x _
            by_cases hx : x.eqName d = true <;> simp [hx]
          rw [this]
      | none =>
        simp only [hfind] at hstep
        cases hrec : cleanupFuel f (lowerStr d.name) t with
        | none => rw [hrec] at hstep; cases hstep
        | some r =>
          rw [hrec] at hstep
          obtain ⟨t₂, l₂⟩ := r
          cases hstep
          exact ih _ _ _ _ hrec
    have loop : ∀ (snap : List Dep) (t : Cfg) (acc : List String) (t' : Cfg)
        (l' : List String),
        snap.foldl (cleanupStep f package) (some (t, acc)) = some (t', l') →
        CleanShape t t' := by
      intro snap
      induction snap with
      | nil => intro t acc t' l' hl; cases hl; exact CleanShape.rfl t
      | cons d rest ihs =>
        intro t acc t' l' hl
        rw [List.foldl_cons] at hl
        cases hstep : cleanupStep f package (some (t, acc)) d with
        | none => rw [hstep, cleanupFoldl_none] at hl; cases hl
        | some r =>
          rw [hstep] at hl
          obtain ⟨t₁, l₁⟩ := r
          exact CleanShape.trans (step t acc d t₁ l₁ hstep) (ihs t₁ l₁ t' l' hl)
    exact loop s.indirect_dependencies s [] s' l h

theorem removePkg_proceeds (x : String) (s : Cfg)
    (hmem : lowerStr x ∈ s.all) :
    removePkg false x s =
    match cleanupFuel (cleanupFuelBound (removeRootSections (lowerStr x) s))
        (lowerStr x) (removeRootSections (lowerStr x) s) with
    | none => none
    | some (t, l) => some (t, lowerStr x :: l, []) := by
  unfold removePkg
  rw [if_neg]
  · rfl
  · intro hcontra
    exact hcontra.1 (by simpa using hmem)

/-- The name removed by `remove` is gone from the whole graph afterwards,
provided it was not (also) the name of an indirect node. -/
theorem removePkg_not_mem_after (x : String) (s s' : Cfg) (l msgs : List String)
    (hmem : lowerStr x ∈ s.all)
    (hni : lowerStr x ∉ s.indirect_dependencies.map (fun d => lowerStr d.name))
    (h : removePkg false x s = some (s', l, msgs)) :
    lowerStr x ∉ s'.all := by
  rw [removePkg_proceeds x s hmem] at h
  cases hclean : cleanupFuel
      (cleanupFuelBound (removeRootSections (lowerStr x) s)) (lowerStr x)
      (removeRootSections (lowerStr x) s) with
  | none => rw [hclean] at h; cases h
  | some r =>
    rw [hclean] at h
    obtain ⟨t, l₀⟩ := r
    obtain ⟨rfl, -⟩ := Prod.mk.injEq .. ▸ Option.some.inj h
    have hshape := cleanupFuel_shape _ _ _ _ _ hclean
    intro hmem'
    rw [mem_all_iff] at hmem'
    rcases hmem' with hd | ho | hi
    · rw [hshape.1] at hd
      obtain ⟨d, hdf, hdn⟩ := List.mem_map.mp hd
      have := (List.mem_filter.mp hdf).2
      simp only [decide_eq_true_eq] at this
      exact this hdn
    · rw [hshape.2.1] at ho
      obtain ⟨d, hdf, hdn⟩ := List.mem_map.mp ho
      obtain ⟨gl, hgl, hdgl⟩ := List.mem_flatten.mp hdf
      obtain ⟨gd, hgd, rfl⟩ := List.mem_map.mp hgl
      have hgd' := (List.mem_filter.mp hgd).1
      obtain ⟨gd₀, _, rfl⟩ := List.mem_map.mp hgd'
      have := (List.mem_filter.mp hdgl).2
      simp only [decide_eq_true_eq] at this
      exact this hdn
    · have := hshape.2.2.subset hi
      exact hni this

/-- A fresh `Dependency(name)` is wiped by `apply_pypi_info`, so installing
it depends only on what the registry answers for the name. -/
theorem installFuel_mkNamed_congr (reg : Registry) (fuel : Nat) (a b : String)
    (optional : Option String) (s : Cfg) (hab : reg a = reg b) :
    installFuel reg fuel (Dep.mkNamed a) optional s =
    installFuel reg fuel (Dep.mkNamed b) optional s := by
  cases fuel with
  | zero => rfl
  | succ f =>
    rw [installFuel_succ, installFuel_succ]
    show (match reg a with
      | none => none
      | some info =>
        installChildren reg f (applyPypiInfo (Dep.mkNamed a) info) optional
          (insertNode s optional (applyPypiInfo (Dep.mkNamed a) info))
          (applyPypiInfo (Dep.mkNamed a) info).requires_dist) =
      (match reg b with
      | none => none
      | some info =>
        installChildren reg f (applyPypiInfo (Dep.mkNamed b) info) optional
          (insertNode s optional (applyPypiInfo (Dep.mkNamed b) info))
          (applyPypiInfo (Dep.mkNamed b) info).requires_dist)
    rw [hab]
    cases reg b <;> rfl

theorem removePkg_lower (indirect : Bool) (x : String) (s : Cfg) :
    removePkg indirect (lowerStr x) s = removePkg indirect x s := by
  simp only [removePkg, lowerStr_idem]

/-- C7 counterexample: for the installed (indirect-only) name `markupsafe`,
`update` and `remove; add` give different final graphs: `update` refetches
`markupsafe` and installs it as a *direct* dependency next to the surviving
indirect node, while `remove; add` leaves the graph unchanged (`remove`
cannot cascade it away — `Werkzeug` still needs it — and `add` then reports
it as already installed). -/
theorem claim_C7_counterexample :
    (updatePkg regW 10 "markupsafe" cfgW).map (fun r => r.1) =
      some cfgWupdated ∧
    ((removePkg false "markupsafe" cfgW).bind (fun r =>
      addPkg regW 10 "markupsafe" none r.1)).map (fun r => r.1) = some cfgW ∧
    cfgWupdated ≠ cfgW := by
  refine ⟨by decide, by decide, by decide⟩

/-- C7 amended: for every name that is present as a *root* (direct or
optional) dependency — that is, present in the graph but not the name of an
indirect node — `update x` produces exactly the final graph state of
`remove x` followed by `add x` (and hence the same persisted config, which
is a function of that state), provided the registry answers the lower-cased
and original spellings of `x` alike.  There is no in-place version bump:
both paths refetch through the same `_install` of a fresh `Dependency`.
For indirect-only names the two differ, as the counterexample shows. -/
theorem claim_C7_amended (reg : Registry) (fuel : Nat) (x : String) (s : Cfg)
    (hreg : reg (lowerStr x) = reg x)
    (hmem : lowerStr x ∈ s.all)
    (hni : lowerStr x ∉ s.indirect_dependencies.map (fun d => lowerStr d.name)) :
    (updatePkg reg fuel x s).map (fun r => r.1) =
    ((removePkg false x s).bind (fun r =>
      addPkg reg fuel x none r.1)).map (fun r => r.1) := by
  have hct : s.all.contains (lowerStr x) = true := by simpa using hmem
  unfold updatePkg
  rw [if_neg (fun hc => hc hct), removePkg_lower]
  cases hr : removePkg false x s with
  | none => rfl
  | some r =>
    obtain ⟨s₁, l₀, m₀⟩ := r
    have hnotmem : lowerStr x ∉ s₁.all :=
      removePkg_not_mem_after x s s₁ l₀ m₀ hmem hni hr
    have hncont : s₁.all.contains (lowerStr x) = false := by
      simpa using hnotmem
    show (match installFuel reg fuel (Dep.mkNamed (lowerStr x)) none s₁ with
      | none => none
      | some s => some (s, m₀)).map (fun r : Cfg × List String => r.1) =
      ((addPkg reg fuel x none s₁).map (fun r : Cfg × List String => r.1))
    rw [installFuel_mkNamed_congr reg fuel (lowerStr x) x none s₁ hreg]
    unfold addPkg
    rw [if_neg (by rw [hncont]; exact fun hc => Bool.false_ne_true hc)]
    cases installFuel reg fuel (Dep.mkNamed x) none s₁ with
    | none => rfl
    | some s₂ => rfl

/-- Witness for the amended C7: `update Werkzeug` on the Werkzeug graph
equals `remove Werkzeug; add Werkzeug`. -/
theorem claim_C7_witness :
    (updatePkg regW 10 "Werkzeug" cfgW).map (fun r => r.1) =
    ((removePkg false "Werkzeug" cfgW).bind (fun r =>
      addPkg regW 10 "Werkzeug" none r.1)).map (fun r => r.1) :=
  claim_C7_amended regW 10 "Werkzeug" cfgW (by decide) (by decide) (by decide)

theorem eqName_iff (x d : Dep) :
    x.eqName d = true ↔ lowerStr x.name = lowerStr d.name := by
  simp [Dep.eqName]

theorem addSet_names_of_not_mem (l : List Dep) (d : Dep)
    (h : lowerStr d.name ∉ l.map (fun x => lowerStr x.name)) :
    (addSet l d).map (fun x => lowerStr x.name) =
    l.map (fun x => lowerStr x.name) ++ [lowerStr d.name] := by
  unfold addSet
  rw [if_neg]
  · simp
  · intro hany
    obtain ⟨x, hx, hxe⟩ := List.any_eq_true.mp hany
    exact h (List.mem_map.mpr ⟨x, hx, (eqName_iff x d).mp hxe⟩)

theorem perm_snoc_middle {α : Type} (a : List α) (x : α) (b : List α) :
    (a ++ [x] ++ b).Perm (a ++ b ++ [x]) := by
  rw [List.append_assoc, List.append_assoc]
  exact List.Perm.append_left a List.perm_append_comm

theorem addDepToGroup_flatten_perm (groups : List (String × List Dep))
    (g : String) (d : Dep)
    (hk : (groups.map Prod.fst).Nodup)
    (h : lowerStr d.name ∉
      ((groups.map Prod.snd).flatten.map (fun x => lowerStr x.name))) :
    ((((addDepToGroup groups g d).map Prod.snd).flatten.map
      (fun x => lowerStr x.name))).Perm
    ((groups.map Prod.snd).flatten.map (fun x => lowerStr x.name) ++
      [lowerStr d.name]) := by
  induction groups with
  | nil =>
    have he : addDepToGroup [] g d = [(g, [d])] := by simp [addDepToGroup]
    rw [he]
    simp
  | cons gd rest ih =>
    have hkr : (rest.map Prod.fst).Nodup := hk.of_cons
    have hsplit : lowerStr d.name ∉
        gd.2.map (fun x => lowerStr x.name) ∧ lowerStr d.name ∉
        ((rest.map Prod.snd).flatten.map (fun x => lowerStr x.name)) := by
      constructor <;> intro hmem <;> apply h
      · simp only [List.map_cons, List.flatten_cons, List.map_append]
        exact List.mem_append_left _ hmem
      · simp only [List.map_cons, List.flatten_cons, List.map_append]
        exact List.mem_append_right _ hmem
    unfold addDepToGroup
    by_cases hgd : gd.1 = g
    · rw [if_pos (by simp [hgd])]
      have hrest : rest.map (fun p =>
          if p.1 = g then (p.1, addSet p.2 d) else p) = rest := by
        conv_rhs => rw [← List.map_id rest]
        refine List.map_congr_left ?_
        intro p hp
        have hpne : p.1 ≠ g := by
          intro hpg
          have : gd.1 ∈ rest.map Prod.fst :=
            List.mem_map.mpr ⟨p, hp, by rw [hpg, hgd]⟩
          exact (List.nodup_cons.mp hk).1 this
        simp [hpne]
      simp only [List.map_cons, hgd, if_true, hrest, List.flatten_cons,
        List.map_append]
      rw [addSet_names_of_not_mem gd.2 d hsplit.1]
      exact perm_snoc_middle _ _ _
    · rw [show ((gd :: rest).any (·.1 = g)) = (rest.any (·.1 = g)) by
        simp [hgd]]
      by_cases hany : rest.any (·.1 = g) = true
      · rw [if_pos hany]
        have ihp := ih hkr hsplit.2
        rw [addDepToGroup, if_pos hany] at ihp
        simp only [List.map_cons, hgd, if_false, List.flatten_cons,
          List.map_append, ite_false]
        refine List.Perm.trans (List.Perm.append_left _ ihp) ?_
        rw [List.append_assoc]
      · rw [if_neg hany]
        have he : ((((gd :: rest) ++ [(g, [d])]).map Prod.snd).flatten.map
            (fun x => lowerStr x.name)) =
            ((gd :: rest).map Prod.snd).flatten.map (fun x => lowerStr x.name) ++
              [lowerStr d.name] := by
          simp [List.map_append, List.flatten_append]
        rw [he]

theorem all_eq_sections (s : Cfg) :
    s.all = s.dependencies.map (fun x => lowerStr x.name) ++
      ((s.optional_dependencies.map Prod.snd).flatten.map
        (fun x => lowerStr x.name)) ++
      s.indirect_dependencies.map (fun x => lowerStr x.name) := by
  simp [Cfg.all, Cfg.allDeps, List.map_append]

theorem insertNode_all_perm (s : Cfg) (optional : Option String) (d : Dep)
    (hk : (s.optional_dependencies.map Prod.fst).Nodup)
    (hnot : lowerStr d.name ∉ s.all) :
    (insertNode s optional d).all.Perm (s.all ++ [lowerStr d.name]) := by
  rw [mem_all_iff] at hnot
  push_neg at hnot
  obtain ⟨hnd, hno, hni⟩ := hnot
  unfold insertNode
  split
  · rw [all_eq_sections, all_eq_sections]
    show (_ ++ _ ++ (addSet s.indirect_dependencies d).map _).Perm _
    rw [addSet_names_of_not_mem _ _ hni, ← List.append_assoc]
  · cases optional with
    | none =>
      rw [all_eq_sections, all_eq_sections]
      show ((addSet s.dependencies d).map _ ++ _ ++ _).Perm _
      rw [addSet_names_of_not_mem _ _ hnd]
      have := perm_snoc_middle (s.dependencies.map (fun x => lowerStr x.name))
        (lowerStr d.name)
        (((s.optional_dependencies.map Prod.snd).flatten.map
          (fun x => lowerStr x.name)) ++
          s.indirect_dependencies.map (fun x => lowerStr x.name))
      simpa [List.append_assoc] using this
    | some g =>
      rw [all_eq_sections, all_eq_sections]
      show (_ ++ ((addDepToGroup s.optional_dependencies g d).map
        Prod.snd).flatten.map _ ++ _).Perm _
      have hflat := addDepToGroup_flatten_perm s.optional_dependencies g d hk hno
      refine List.Perm.trans
        (((hflat.append_left _).append_right _)) ?_
      have := perm_snoc_middle
        (s.dependencies.map (fun x => lowerStr x.name) ++
          ((s.optional_dependencies.map Prod.snd).flatten.map
            (fun x => lowerStr x.name)))
        (lowerStr d.name)
        (s.indirect_dependencies.map (fun x => lowerStr x.name))
      simpa [List.append_assoc] using this

theorem insertNode_keys_nodup (s : Cfg) (optional : Option String) (d : Dep)
    (hk : (s.optional_dependencies.map Prod.fst).Nodup) :
    ((insertNode s optional d).optional_dependencies.map Prod.fst).Nodup := by
  unfold insertNode
  split
  · exact hk
  · cases optional with
    | none => exact hk
    | some g =>
      show ((addDepToGroup s.optional_dependencies g d).map Prod.fst).Nodup
      unfold addDepToGroup
      split
      · have : (s.optional_dependencies.map (fun gd =>
            if gd.1 = g then (gd.1, addSet gd.2 d) else gd)).map Prod.fst =
            s.optional_dependencies.map Prod.fst := by
          rw [List.map_map]
          refine List.map_congr_left ?_
          intro gd _
          by_cases hgd : gd.1 = g <;> simp [hgd]
        rw [this]
        exact hk
      · rename_i hany
        have hg : g ∉ s.optional_dependencies.map Prod.fst := by
          intro hmem
          obtain ⟨gd, hgd, hfst⟩ := List.mem_map.mp hmem
          exact hany (List.any_eq_true.mpr ⟨gd, hgd, by simp [hfst]⟩)
        rw [List.map_append]
        simp only [List.map_cons, List.map_nil]
        rw [List.nodup_append]
        exact ⟨hk, List.nodup_singleton g,
          fun a ha hb => hg ((List.mem_singleton.mp hb) ▸ ha)⟩

theorem insertNode_inv (s : Cfg) (optional : Option String) (d : Dep)
    (hinv : GraphInv s) (hnot : lowerStr d.name ∉ s.all) :
    GraphInv (insertNode s optional d) := by
  refine ⟨?_, insertNode_keys_nodup s optional d hinv.2⟩
  refine ((insertNode_all_perm s optional d hinv.2 hnot).nodup_iff).mpr ?_
  rw [List.nodup_append]
  exact ⟨hinv.1, List.nodup_singleton _,
    fun a ha hb => hnot ((List.mem_singleton.mp hb) ▸ ha)⟩

theorem installFuel_inv (reg : Registry) (hg : GoodReg reg) :
    ∀ (fuel : Nat) (dep : Dep) (optional : Option String) (s s' : Cfg),
    installFuel reg fuel dep optional s = some s' → GraphInv s →
    lowerStr dep.name ∉ s.all → GraphInv s' := by
  intro fuel
  induction fuel with
  | zero => intro dep optional s s' h; cases h
  | succ f ih =>
    intro dep optional s s' h hinv hnot
    rw [installFuel_succ] at h
    cases hreg : reg dep.name with
    | none => rw [hreg] at h; cases h
    | some info =>
      simp only [hreg] at h
      rw [installChildren] at h
      have hname : lowerStr (applyPypiInfo dep info).name = lowerStr dep.name := by
        simpa [applyPypiInfo] using hg dep.name info hreg
      have hbase : GraphInv (insertNode s optional (applyPypiInfo dep info)) :=
        insertNode_inv s optional _ hinv (by rw [hname]; exact hnot)
      have children : ∀ (entries : List String) (t t' : Cfg),
          entries.foldl (installChild reg f (applyPypiInfo dep info) optional)
            (some t) = some t' → GraphInv t → GraphInv t' := by
        intro entries
        induction entries with
        | nil => intro t t' ht hti; cases ht; exact hti
        | cons e rest ihe =>
          intro t t' ht hti
          rw [List.foldl_cons] at ht
          cases hstep : installChild reg f (applyPypiInfo dep info) optional
              (some t) e with
          | none => rw [hstep, installChildren_none] at ht; cases ht
          | some t₁ =>
            rw [hstep] at ht
            refine ihe t₁ t' ht ?_
            rcases installChild_some_cases reg f _ optional t e t₁ hstep with
              heq | ⟨nd, hnc, hrec⟩
            · rw [heq]; exact hti
            · exact ih _ _ _ _ hrec hti (by simpa using hnc)
      exact children _ _ _ h hbase

theorem flatten_filtered_sublist (groups : List (String × List Dep))
    (p : Dep → Bool) :
    ((((groups.map (fun gd => (gd.1, gd.2.filter p))).filter (fun gd =>
      gd.2 ≠ [])).map Prod.snd).flatten).Sublist ((groups.map Prod.snd).flatten) := by
  induction groups with
  | nil => simp
  | cons gd rest ih =>
    by_cases hempty : (gd.2.filter p = [])
    · simp only [List.map_cons, List.filter_cons, List.flatten_cons, hempty]
      simp only [ne_eq, not_true_eq_false, decide_False, if_false]
      exact ih.trans (List.sublist_append_right _ _)
    · simp only [List.map_cons, List.filter_cons, List.flatten_cons]
      simp only [ne_eq, hempty, not_false_eq_true, decide_True, if_true,
        List.map_cons, List.flatten_cons]
      exact List.Sublist.append (List.filter_sublist _) ih

theorem removePkg_all_sublist (x : String) (s s' : Cfg) (l m : List String)
    (h : removePkg false x s = some (s', l, m)) :
    s'.all.Sublist s.all ∧
    ((s'.optional_dependencies.map Prod.fst).Sublist
      (s.optional_dependencies.map Prod.fst)) := by
  by_cases hmem : lowerStr x ∈ s.all
  · rw [removePkg_proceeds x s hmem] at h
    cases hclean : cleanupFuel
        (cleanupFuelBound (removeRootSections (lowerStr x) s)) (lowerStr x)
        (removeRootSections (lowerStr x) s) with
    | none => rw [hclean] at h; cases h
    | some r =>
      rw [hclean] at h
      obtain ⟨t, l₀⟩ := r
      obtain ⟨rfl, -⟩ := Prod.mk.injEq .. ▸ Option.some.inj h
      have hshape := cleanupFuel_shape _ _ _ _ _ hclean
      have hmid : (removeRootSections (lowerStr x) s).all.Sublist s.all ∧
          (((removeRootSections (lowerStr x) s).optional_dependencies.map
            Prod.fst).Sublist (s.optional_dependencies.map Prod.fst)) := by
        constructor
        · rw [all_eq_sections, all_eq_sections]
          refine List.Sublist.append (List.Sublist.append ?_ ?_) ?_
          · exact (List.filter_sublist _).map _
          · exact (flatten_filtered_sublist _ _).map _
          · exact List.Sublist.refl _
        · refine List.Sublist.trans (((List.filter_sublist _).map Prod.fst)) ?_
          have heq : ((s.optional_dependencies.map (fun gd =>
              (gd.1, gd.2.filter (fun d =>
                lowerStr d.name ≠ lowerStr x)))).map Prod.fst) =
              s.optional_dependencies.map Prod.fst := by
            rw [List.map_map]
            exact List.map_congr_left (fun gd _ => rfl)
          rw [heq]
      constructor
      · refine List.Sublist.trans ?_ hmid.1
        rw [all_eq_sections, all_eq_sections, hshape.1, hshape.2.1]
        exact List.Sublist.append (List.Sublist.refl _) hshape.2.2
      · rw [hshape.2.1]
        exact hmid.2
  · unfold removePkg at h
    rw [if_pos ⟨fun hc => hmem (by simpa using hc), by simp⟩] at h
    obtain ⟨rfl, -⟩ := Prod.mk.injEq .. ▸ Option.some.inj h
    exact ⟨List.Sublist.refl _, List.Sublist.refl _⟩

theorem removePkg_inv (x : String) (s s' : Cfg) (l m : List String)
    (h : removePkg false x s = some (s', l, m)) (hinv : GraphInv s) :
    GraphInv s' := by
  obtain ⟨h1, h2⟩ := removePkg_all_sublist x s s' l m h
  exact ⟨h1.nodup hinv.1, h2.nodup hinv.2⟩

theorem addPkg_inv (reg : Registry) (hg : GoodReg reg) (fuel : Nat)
    (pkg : String) (opt : Option String) (s s' : Cfg) (msgs : List String)
    (h : addPkg reg fuel pkg opt s = some (s', msgs)) (hinv : GraphInv s) :
    GraphInv s' := by
  unfold addPkg at h
  by_cases hc : s.all.contains (lowerStr pkg) = true
  · rw [if_pos hc] at h
    obtain ⟨rfl, -⟩ := Prod.mk.injEq .. ▸ Option.some.inj h
    exact hinv
  · rw [if_neg hc] at h
    cases hi : installFuel reg fuel (Dep.mkNamed pkg) opt s with
    | none => rw [hi] at h; cases h
    | some s₁ =>
      rw [hi] at h
      obtain ⟨rfl, -⟩ := Prod.mk.injEq .. ▸ Option.some.inj h
      refine installFuel_inv reg hg fuel (Dep.mkNamed pkg) opt s s₁ hi hinv ?_
      intro hmem
      exact hc (by simpa using hmem)

theorem reachableAR_inv (reg : Registry) (hg : GoodReg reg) (s : Cfg)
    (h : ReachableAR reg s) : GraphInv s := by
  induction h with
  | empty => exact ⟨by simp [Cfg.all, Cfg.allDeps], by simp⟩
  | add fuel pkg opt s s' msgs hr hstep ih =>
    exact addPkg_inv reg hg fuel pkg opt s s' msgs hstep ih
  | remove pkg s s' l msgs hr hstep ih =>
    exact removePkg_inv pkg s s' l msgs hstep ih

theorem goodReg_regW : GoodReg regW := by
  intro n i h
  unfold regW at h
  by_cases h1 : (lowerStr n == "werkzeug") = true
  · simp only [h1, if_true] at h
    cases h
    rw [eq_of_beq h1]
    decide
  · simp only [h1] at h
    by_cases h2 : (lowerStr n == "markupsafe") = true
    · simp only [h2, if_true] at h
      cases h
      rw [eq_of_beq h2]
      decide
    · simp [h2] at h

/-- C4 counterexample: the claim's own case-insensitivity instance fails at
its first step — `add "Werkzeug"` from the empty graph does not succeed:
resolving Werkzeug's child entry `"MarkupSafe>=2.0"` raises `AttributeError`
at `new_dependency.needed_by.add(dependency)` (installer.py:205; `needed_by`
is a plain list, dependency.py:45), so the subsequent `remove "werkzeug"`
never runs. -/
theorem claim_C4_counterexample :
    addPkg regW 10 "Werkzeug" none {} = none := by decide

/-- C4 amended: every operation looks names up by lower-cased name, and in
every state reachable from the empty graph through `add` and `remove`
(against a registry whose canonical names agree with the queried names up
to case) the graph holds at most one node per distinct lower-cased name
(conjunct 1).  The claim's concrete case-insensitivity instance survives
only for packages without non-marker requirements, since any other `add`
aborts on the `AttributeError` from `needed_by.add`: `add "MarkupSafe"`
succeeds and the subsequent `remove "markupsafe"` — the lower-cased
spelling — succeeds and fully removes the node (conjuncts 2 and 3).  On a
state holding an indirect-only name (as loaded from a persisted config;
such states are no longer reachable from empty), `update` still breaks the
one-node-per-name invariant by installing a duplicate direct node
(conjuncts 4 and 5). -/
theorem claim_C4_amended :
    (∀ (reg : Registry) (s : Cfg), GoodReg reg → ReachableAR reg s →
      s.all.Nodup) ∧
    addPkg regW 10 "MarkupSafe" none {} = some (cfgM, []) ∧
    removePkg false "markupsafe" cfgM = some ({}, ["markupsafe"], []) ∧
    updatePkg regW 10 "markupsafe" cfgW = some (cfgWupdated, []) ∧
    ¬ cfgWupdated.all.Nodup := by
  refine ⟨?_, by decide, by decide, by decide, by decide⟩
  intro reg s hg h
  exact (reachableAR_inv reg hg s h).1

/-- Witness for the amended C4: the invariant at the state reached by
`add MarkupSafe`. -/
theorem claim_C4_witness : cfgM.all.Nodup :=
  claim_C4_amended.1 regW cfgM goodReg_regW
    (ReachableAR.add 10 "MarkupSafe" none {} cfgM [] ReachableAR.empty
      (by decide))

theorem find?_eqName_none (l : List Dep) (d : Dep)
    (h : l.find? (·.eqName d) = none) :
    lowerStr d.name ∉ l.map (fun x => lowerStr x.name) := by
  rw [List.find?_eq_none] at h
  intro hmem
  obtain ⟨x, hx, hxe⟩ := List.mem_map.mp hmem
  have hxd := h x hx
  rw [eqName_iff] at hxd
  exact hxd hxe

theorem find?_eqName_self (l : List Dep) (d : Dep) (hd : d ∈ l)
    (hnodup : (l.map (fun x => lowerStr x.name)).Nodup) :
    l.find? (·.eqName d) = some d := by
  induction l with
  | nil => cases hd
  | cons x rest ih =>
    by_cases hx : x.eqName d = true
    · rw [List.find?_cons, hx]
      rcases List.mem_cons.mp hd with rfl | hdr
      · rfl
      · exfalso
        have hxn : lowerStr x.name = lowerStr d.name := (eqName_iff x d).mp hx
        have hdm : lowerStr d.name ∈ rest.map (fun y => lowerStr y.name) :=
          List.mem_map.mpr ⟨d, hdr, rfl⟩
        rw [← hxn] at hdm
        exact (List.nodup_cons.mp hnodup).1 hdm
    · have hx' : x.eqName d = false := by simpa using hx
      rw [List.find?_cons, hx']
      rcases List.mem_cons.mp hd with rfl | hdr
      · exact absurd (by simp [Dep.eqName]) hx
      · exact ih hdr (List.nodup_cons.mp hnodup).2

theorem eraseP_eqName_not_mem (l : List Dep) (d : Dep)
    (hnodup : (l.map (fun x => lowerStr x.name)).Nodup) :
    lowerStr d.name ∉ (l.eraseP (·.eqName d)).map (fun x => lowerStr x.name) := by
  induction l with
  | nil => simp
  | cons x rest ih =>
    by_cases hx : x.eqName d = true
    · rw [List.eraseP_cons, hx]
      have hxn : lowerStr x.name = lowerStr d.name := (eqName_iff x d).mp hx
      intro hmem
      rw [← hxn] at hmem
      exact (List.nodup_cons.mp hnodup).1 hmem
    · have hx' : x.eqName d = false := by simpa using hx
      rw [List.eraseP_cons, hx']
      intro hmem
      rcases List.mem_map.mp hmem with ⟨y, hy, hyn⟩
      rcases List.mem_cons.mp hy with rfl | hyr
      · exact hx ((eqName_iff y d).mpr hyn)
      · exact ih (List.nodup_cons.mp hnodup).2 (List.mem_map.mpr ⟨y, hyr, hyn⟩)

theorem eq_of_name_eq_of_nodup (l : List Dep) (x y : Dep) (hx : x ∈ l)
    (hy : y ∈ l) (hn : lowerStr x.name = lowerStr y.name)
    (hnodup : (l.map (fun z => lowerStr z.name)).Nodup) : x = y := by
  induction l with
  | nil => cases hx
  | cons a rest ih =>
    rcases List.mem_cons.mp hx with rfl | hxr
    · rcases List.mem_cons.mp hy with rfl | hyr
      · rfl
      · exact absurd (List.mem_map.mpr ⟨y, hyr, hn.symm⟩)
          (List.nodup_cons.mp hnodup).1
    · rcases List.mem_cons.mp hy with rfl | hyr
      · exact absurd (List.mem_map.mpr ⟨x, hxr, hn⟩)
          (List.nodup_cons.mp hnodup).1
      · exact ih hxr hyr (List.nodup_cons.mp hnodup).2

theorem map_update_names (l : List Dep) (d : Dep) (nb : List Ref) :
    ((l.map (fun x =>
      if x.eqName d then { x with needed_by := nb } else x)).map
        (fun x => lowerStr x.name)) = l.map (fun x => lowerStr x.name) := by
  rw [List.map_map]
  refine List.map_congr_left ?_
  intro x _
  by_cases hx : x.eqName d = true <;> simp [hx]

theorem mem_eraseP_of_ne (l : List Dep) (d x : Dep) (hx : x ∈ l)
    (hne : x.eqName d = false) : x ∈ l.eraseP (·.eqName d) := by
  induction l with
  | nil => cases hx
  | cons a rest ih =>
    by_cases ha : a.eqName d = true
    · rw [List.eraseP_cons, ha]
      rcases List.mem_cons.mp hx with rfl | hxr
      · rw [ha] at hne; cases hne
      · exact hxr
    · have ha' : a.eqName d = false := by simpa using ha
      rw [List.eraseP_cons, ha']
      rcases List.mem_cons.mp hx with rfl | hxr
      · exact List.mem_cons_self _ _
      · exact List.mem_cons_of_mem _ (ih hxr)

theorem cleanupFuel_ok : ∀ (fuel : Nat) (pkg : String) (s s' : Cfg)
    (l : List String), cleanupFuel fuel pkg s = some (s', l) →
    (indNames s).Nodup → CleanupOk pkg s s' l := by
  intro fuel
  induction fuel with
  | zero => intro pkg s s' l h; cases h
  | succ f ih =>
    intro pkg s s' l h hnodup
    rw [cleanupFuel_succ] at h
    have loop : ∀ (snap : List Dep) (t : Cfg) (acc : List String)
        (t' : Cfg) (l' : List String),
        snap.foldl (cleanupStep f pkg) (some (t, acc)) = some (t', l') →
        (indNames t).Nodup →
        (∀ d ∈ t.indirect_dependencies,
          lowerStr d.name ∉ snap.map (fun x => lowerStr x.name) →
          d.needed_by ≠ [] ∧ ∀ r ∈ d.needed_by, lowerStr r.name ≠ pkg) →
        ∃ lNew, l' = acc ++ lNew ∧
          (indNames t').Nodup ∧
          (∀ d' ∈ t'.indirect_dependencies, d'.needed_by ≠ [] ∧
            ∀ r ∈ d'.needed_by, lowerStr r.name ≠ pkg ∧
              lowerStr r.name ∉ lNew) ∧
          (∀ n ∈ lNew, (n ∈ snap.map (fun x => lowerStr x.name) ∨
            n ∈ indNames t) ∧ n ∉ indNames t') ∧
          (∀ d ∈ t.indirect_dependencies, lowerStr d.name ∉ indNames t' →
            lowerStr d.name ∈ lNew) ∧
          (∀ d' ∈ t'.indirect_dependencies, ∃ d ∈ t.indirect_dependencies,
            lowerStr d'.name = lowerStr d.name ∧
              d'.needed_by.Sublist d.needed_by) := by
      intro snap
      induction snap with
      | nil =>
        intro t acc t' l' hl hn hq
        rw [List.foldl_nil] at hl
        obtain ⟨rfl, rfl⟩ := Prod.mk.inj (Option.some.inj hl)
        refine ⟨[], by simp, hn, ?_, by simp, ?_, ?_⟩
        · intro d' hd'
          obtain ⟨h1, h2⟩ := hq d' hd' (by simp)
          exact ⟨h1, fun r hr => ⟨h2 r hr, by simp⟩⟩
        · intro d hd hnot
          exact absurd (List.mem_map.mpr ⟨d, hd, rfl⟩) hnot
        · intro d' hd'
          exact ⟨d', hd', rfl, List.Sublist.refl _⟩
      | cons d rest ihs =>
        intro t acc t' l' hl hn hq
        rw [List.foldl_cons] at hl
        cases hstep : cleanupStep f pkg (some (t, acc)) d with
        | none => rw [hstep, cleanupFoldl_none] at hl; cases hl
        | some r1 =>
          rw [hstep] at hl
          obtain ⟨t₁, acc₁⟩ := r1
          unfold cleanupStep at hstep
          cases hfind : t.indirect_dependencies.find? (·.eqName d) with
          | some cur =>
            have hcurmem : cur ∈ t.indirect_dependencies :=
              List.mem_of_find?_eq_some hfind
            have hfindp := List.find?_some hfind
            have hcureq : lowerStr cur.name = lowerStr d.name :=
              (eqName_iff cur d).mp hfindp
            simp only [hfind] at hstep
            by_cases hnb : ((cur.needed_by.filter
                (fun r => lowerStr r.name ≠ pkg)).isEmpty = true)
            · -- the node lost its last requirer: erase it and cascade
              rw [if_pos hnb] at hstep
              cases hrec : cleanupFuel f (lowerStr d.name)
                  { t with indirect_dependencies := t.indirect_dependencies.eraseP (·.eqName d) } with
              | none => rw [hrec] at hstep; cases hstep
              | some r2 =>
                rw [hrec] at hstep
                obtain ⟨t₃, l₂⟩ := r2
                obtain ⟨rfl, rfl⟩ := Prod.mk.inj (Option.some.inj hstep)
                have herasesub :
                    (t.indirect_dependencies.eraseP (·.eqName d)).Sublist
                      t.indirect_dependencies := List.eraseP_sublist _
                have hn₂ : ((t.indirect_dependencies.eraseP
                    (·.eqName d)).map (fun x => lowerStr x.name)).Nodup :=
                  (herasesub.map _).nodup hn
                have hqnot : lowerStr d.name ∉
                    ((t.indirect_dependencies.eraseP (·.eqName d)).map
                      (fun x => lowerStr x.name)) :=
                  eraseP_eqName_not_mem _ _ hn
                have ihf := ih (lowerStr d.name) _ t₃ l₂ hrec hn₂
                have hshape₂ := cleanupFuel_shape _ _ _ _ _ hrec
                have hn₃ : (indNames t₃).Nodup := (hshape₂.2.2).nodup hn₂
                have hq₃ : lowerStr d.name ∉ indNames t₃ := by
                  intro hmem
                  exact hqnot (hshape₂.2.2.subset hmem)
                have hsub₃ : ∀ n, n ∈ indNames t₃ →
                    n ∈ indNames t := by
                  intro n hmem
                  exact (herasesub.map _).subset (hshape₂.2.2.subset hmem)
                have hq' : ∀ x ∈ t₃.indirect_dependencies,
                    lowerStr x.name ∉ rest.map (fun z => lowerStr z.name) →
                    x.needed_by ≠ [] ∧ ∀ r ∈ x.needed_by,
                      lowerStr r.name ≠ pkg := by
                  intro x hx hnotrest
                  have hxne : lowerStr x.name ≠ lowerStr d.name := by
                    intro hcontra
                    exact hq₃ (hcontra ▸ List.mem_map.mpr ⟨x, hx, rfl⟩)
                  obtain ⟨y, hy, hyname, hysub⟩ := ihf.2.2.2 x hx
                  have hymem : y ∈ t.indirect_dependencies := herasesub.subset hy
                  have hynot : lowerStr y.name ∉
                      (d :: rest).map (fun z => lowerStr z.name) := by
                    intro hmem
                    simp only [List.map_cons] at hmem
                    rcases List.mem_cons.mp hmem with heq | hmem'
                    · exact hxne (hyname ▸ heq)
                    · exact hnotrest (hyname ▸ hmem')
                  obtain ⟨-, hyfree⟩ := hq y hymem hynot
                  exact ⟨(ihf.1 x hx).1, fun r hr => hyfree r (hysub.subset hr)⟩
                have hrest := ihs t₃ ((acc ++ [lowerStr d.name]) ++ l₂) t' l' hl
                  hn₃ hq'
                obtain ⟨lNew₃, rfl, hn', hsurv, hrem, hcomp, hshr⟩ := hrest
                have hsub' : ∀ n, n ∈ indNames t' → n ∈ indNames t₃ := by
                  intro n hmem
                  obtain ⟨z, hz, rfl⟩ := List.mem_map.mp hmem
                  obtain ⟨z₃, hz₃, hzname, -⟩ := hshr z hz
                  exact hzname ▸ List.mem_map.mpr ⟨z₃, hz₃, rfl⟩
                refine ⟨[lowerStr d.name] ++ l₂ ++ lNew₃, by simp, hn', ?_, ?_, ?_, ?_⟩
                · -- survivors
                  intro d' hd'
                  obtain ⟨hne, hfree₃⟩ := hsurv d' hd'
                  obtain ⟨x, hx, hxname, hxsub⟩ := hshr d' hd'
                  obtain ⟨-, hfree₂⟩ := ihf.1 x hx
                  refine ⟨hne, fun r hr => ⟨(hfree₃ r hr).1, ?_⟩⟩
                  intro hmem
                  rcases List.mem_append.mp hmem with hmem | hmem₃
                  · rcases List.mem_append.mp hmem with hmemq | hmem₂
                    · obtain ⟨hq2, -⟩ := hfree₂ r (hxsub.subset hr)
                      exact hq2 (List.mem_singleton.mp hmemq)
                    · obtain ⟨-, hl2⟩ := hfree₂ r (hxsub.subset hr)
                      exact hl2 hmem₂
                  · exact (hfree₃ r hr).2 hmem₃
                · -- removed names bookkeeping
                  intro n hmem
                  rcases List.mem_append.mp hmem with hmem | hmem₃
                  · rcases List.mem_append.mp hmem with hmemq | hmem₂
                    · obtain rfl := List.mem_singleton.mp hmemq
                      refine ⟨Or.inl (List.mem_map.mpr ⟨d, List.mem_cons_self _ _, rfl⟩), ?_⟩
                      intro hmem'
                      exact hq₃ (hsub' _ hmem')
                    · obtain ⟨hin, hout⟩ := ihf.2.1 n hmem₂
                      refine ⟨Or.inr ((herasesub.map _).subset hin), ?_⟩
                      intro hmem'
                      exact hout (hsub' _ hmem')
                  · obtain ⟨hin, hout⟩ := hrem n hmem₃
                    refine ⟨?_, hout⟩
                    rcases hin with hin | hin
                    · refine Or.inl ?_
                      simp only [List.map_cons]
                      exact List.mem_cons_of_mem _ hin
                    · exact Or.inr (hsub₃ n hin)
                · -- completeness
                  intro x hx hnott'
                  by_cases hxq : lowerStr x.name = lowerStr d.name
                  · simp [hxq]
                  · have hx₂ : x ∈ t.indirect_dependencies.eraseP (·.eqName d) := by
                      refine mem_eraseP_of_ne _ _ _ hx ?_
                      by_cases hxe : x.eqName d = true
                      · exact absurd ((eqName_iff x d).mp hxe) hxq
                      · simpa using hxe
                    by_cases hx₃ : lowerStr x.name ∈ indNames t₃
                    · obtain ⟨x₃, hx₃mem, hx₃name⟩ := List.mem_map.mp hx₃
                      have := hcomp x₃ hx₃mem (by rw [hx₃name]; exact hnott')
                      rw [hx₃name] at this
                      simp only [List.mem_append]
                      exact Or.inr this
                    · have := ihf.2.2.1 x hx₂ hx₃
                      simp only [List.mem_append]
                      exact Or.inl (Or.inr this)
                · -- shrink correspondence
                  intro d' hd'
                  obtain ⟨x, hx, hxname, hxsub⟩ := hshr d' hd'
                  obtain ⟨y, hy, hyname, hysub⟩ := ihf.2.2.2 x hx
                  exact ⟨y, herasesub.subset hy, hxname.trans hyname,
                    hxsub.trans hysub⟩
            · -- the node keeps requirers: prune its needed_by
              rw [if_neg hnb] at hstep
              obtain ⟨ht₁, hacc₁⟩ := Prod.mk.inj (Option.some.inj hstep)
              have hnames₁ := map_update_names t.indirect_dependencies d
                (cur.needed_by.filter (fun r => lowerStr r.name ≠ pkg))
              have hind : t₁.indirect_dependencies = t.indirect_dependencies.map (fun x => if x.eqName d then { x with needed_by := cur.needed_by.filter (fun r => lowerStr r.name ≠ pkg) } else x) := by
                rw [← ht₁]
              have hn₁ : (indNames t₁).Nodup := by
                unfold indNames
                rw [hind, hnames₁]
                exact hn
              have hq₁ : ∀ x ∈ t₁.indirect_dependencies,
                  lowerStr x.name ∉ rest.map (fun z => lowerStr z.name) →
                  x.needed_by ≠ [] ∧ ∀ r ∈ x.needed_by,
                    lowerStr r.name ≠ pkg := by
                intro x hx hnotrest
                rw [hind] at hx
                obtain ⟨y, hy, hxy⟩ := List.mem_map.mp hx
                by_cases hye : y.eqName d = true
                · simp only [hye, reduceIte] at hxy
                  subst hxy
                  refine ⟨?_, ?_⟩
                  · show cur.needed_by.filter (fun rr => lowerStr rr.name ≠ pkg) ≠ []
                    intro hcontra
                    rw [hcontra] at hnb
                    exact hnb rfl
                  · intro r hr
                    have hr' : r ∈ cur.needed_by.filter (fun rr => lowerStr rr.name ≠ pkg) := hr
                    have h2 := (List.mem_filter.mp hr').2
                    simpa using h2
                · have hye' : y.eqName d = false := by simpa using hye
                  simp only [hye', reduceIte] at hxy
                  subst hxy
                  have hyne : lowerStr y.name ≠ lowerStr d.name := by
                    intro hcontra
                    exact hye ((eqName_iff y d).mpr hcontra)
                  refine hq y hy ?_
                  intro hmem
                  simp only [List.map_cons] at hmem
                  rcases List.mem_cons.mp hmem with heq | hmem'
                  · exact hyne heq
                  · exact hnotrest hmem'
              rw [← hacc₁] at hl
              have hrest := ihs t₁ acc t' l' hl hn₁ hq₁
              obtain ⟨lNew, rfl, hn', hsurv, hrem, hcomp, hshr⟩ := hrest
              refine ⟨lNew, rfl, hn', hsurv, ?_, ?_, ?_⟩
              · intro n hmem
                obtain ⟨hin, hout⟩ := hrem n hmem
                refine ⟨?_, hout⟩
                rcases hin with hin | hin
                · refine Or.inl ?_
                  simp only [List.map_cons]
                  exact List.mem_cons_of_mem _ hin
                · refine Or.inr ?_
                  unfold indNames at hin ⊢
                  rw [hind, hnames₁] at hin
                  exact hin
              · intro x hx hnott'
                have hxn : lowerStr x.name ∈ indNames t₁ := by
                  unfold indNames
                  rw [hind, hnames₁]
                  exact List.mem_map.mpr ⟨x, hx, rfl⟩
                have hxn' : lowerStr x.name ∈
                    List.map (fun z => lowerStr z.name)
                      t₁.indirect_dependencies := hxn
                obtain ⟨x₁, hx₁, hx₁n⟩ := List.mem_map.mp hxn'
                rw [← hx₁n] at hnott' ⊢
                exact hcomp x₁ hx₁ hnott'
              · intro d' hd'
                obtain ⟨x, hx, hxname, hxsub⟩ := hshr d' hd'
                rw [hind] at hx
                obtain ⟨y, hy, hxy⟩ := List.mem_map.mp hx
                by_cases hye : y.eqName d = true
                · simp only [hye, reduceIte] at hxy
                  refine ⟨cur, hcurmem, ?_, ?_⟩
                  · rw [hxname, ← hxy]
                    show lowerStr y.name = lowerStr cur.name
                    rw [(eqName_iff y d).mp hye, hcureq]
                  · refine hxsub.trans ?_
                    rw [← hxy]
                    show (cur.needed_by.filter (fun rr => lowerStr rr.name ≠ pkg)).Sublist cur.needed_by
                    exact List.filter_sublist _
                · have hye' : y.eqName d = false := by simpa using hye
                  simp only [hye', reduceIte] at hxy
                  subst hxy
                  exact ⟨y, hy, hxname, hxsub⟩
          | none =>
            -- a dead snapshot object: its needed_by was emptied when it was
            -- removed, so its name is appended again and the cleanup recurses
            have hqdead : lowerStr d.name ∉ indNames t :=
              find?_eqName_none _ _ hfind
            simp only [hfind] at hstep
            cases hrec : cleanupFuel f (lowerStr d.name) t with
            | none => rw [hrec] at hstep; cases hstep
            | some r2 =>
              rw [hrec] at hstep
              obtain ⟨t₃, l₂⟩ := r2
              obtain ⟨rfl, rfl⟩ := Prod.mk.inj (Option.some.inj hstep)
              have ihf := ih (lowerStr d.name) _ t₃ l₂ hrec hn
              have hshape₂ := cleanupFuel_shape _ _ _ _ _ hrec
              have hn₃ : (indNames t₃).Nodup := (hshape₂.2.2).nodup hn
              have hsub₃ : ∀ n, n ∈ indNames t₃ → n ∈ indNames t :=
                fun n hmem => hshape₂.2.2.subset hmem
              have hq₃ : lowerStr d.name ∉ indNames t₃ :=
                fun hmem => hqdead (hsub₃ _ hmem)
              have hq' : ∀ x ∈ t₃.indirect_dependencies,
                  lowerStr x.name ∉ rest.map (fun z => lowerStr z.name) →
                  x.needed_by ≠ [] ∧ ∀ r ∈ x.needed_by,
                    lowerStr r.name ≠ pkg := by
                intro x hx hnotrest
                have hxne : lowerStr x.name ≠ lowerStr d.name := by
                  intro hcontra
                  exact hq₃ (hcontra ▸ List.mem_map.mpr ⟨x, hx, rfl⟩)
                obtain ⟨y, hy, hyname, hysub⟩ := ihf.2.2.2 x hx
                have hynot : lowerStr y.name ∉
                    (d :: rest).map (fun z => lowerStr z.name) := by
                  intro hmem
                  simp only [List.map_cons] at hmem
                  rcases List.mem_cons.mp hmem with heq | hmem'
                  · exact hxne (hyname ▸ heq)
                  · exact hnotrest (hyname ▸ hmem')
                obtain ⟨-, hyfree⟩ := hq y hy hynot
                exact ⟨(ihf.1 x hx).1, fun r hr => hyfree r (hysub.subset hr)⟩
              have hrest := ihs t₃ ((acc ++ [lowerStr d.name]) ++ l₂) t' l' hl
                hn₃ hq'
              obtain ⟨lNew₃, rfl, hn', hsurv, hrem, hcomp, hshr⟩ := hrest
              have hsub' : ∀ n, n ∈ indNames t' → n ∈ indNames t₃ := by
                intro n hmem
                obtain ⟨z, hz, rfl⟩ := List.mem_map.mp hmem
                obtain ⟨z₃, hz₃, hzname, -⟩ := hshr z hz
                exact hzname ▸ List.mem_map.mpr ⟨z₃, hz₃, rfl⟩
              refine ⟨[lowerStr d.name] ++ l₂ ++ lNew₃, by simp, hn', ?_, ?_, ?_, ?_⟩
              · intro d' hd'
                obtain ⟨hne, hfree₃⟩ := hsurv d' hd'
                obtain ⟨x, hx, hxname, hxsub⟩ := hshr d' hd'
                obtain ⟨-, hfree₂⟩ := ihf.1 x hx
                refine ⟨hne, fun r hr => ⟨(hfree₃ r hr).1, ?_⟩⟩
                intro hmem
                rcases List.mem_append.mp hmem with hmem | hmem₃
                · rcases List.mem_append.mp hmem with hmemq | hmem₂
                  · obtain ⟨hq2, -⟩ := hfree₂ r (hxsub.subset hr)
                    exact hq2 (List.mem_singleton.mp hmemq)
                  · obtain ⟨-, hl2⟩ := hfree₂ r (hxsub.subset hr)
                    exact hl2 hmem₂
                · exact (hfree₃ r hr).2 hmem₃
              · intro n hmem
                rcases List.mem_append.mp hmem with hmem | hmem₃
                · rcases List.mem_append.mp hmem with hmemq | hmem₂
                  · obtain rfl := List.mem_singleton.mp hmemq
                    refine ⟨Or.inl (List.mem_map.mpr ⟨d, List.mem_cons_self _ _, rfl⟩), ?_⟩
                    intro hmem'
                    exact hq₃ (hsub' _ hmem')
                  · obtain ⟨hin, hout⟩ := ihf.2.1 n hmem₂
                    refine ⟨Or.inr hin, ?_⟩
                    intro hmem'
                    exact hout (hsub' _ hmem')
                · obtain ⟨hin, hout⟩ := hrem n hmem₃
                  refine ⟨?_, hout⟩
                  rcases hin with hin | hin
                  · exact Or.inl (by
                      simp only [List.map_cons]
                      exact List.mem_cons_of_mem _ hin)
                  · exact Or.inr (hsub₃ n hin)
              · intro x hx hnott'
                have hxne : lowerStr x.name ≠ lowerStr d.name := by
                  intro hcontra
                  exact hqdead (hcontra ▸ List.mem_map.mpr ⟨x, hx, rfl⟩)
                by_cases hx₃ : lowerStr x.name ∈ indNames t₃
                · obtain ⟨x₃, hx₃mem, hx₃name⟩ := List.mem_map.mp hx₃
                  have := hcomp x₃ hx₃mem (by rw [hx₃name]; exact hnott')
                  rw [hx₃name] at this
                  simp only [List.mem_append]
                  exact Or.inr this
                · have := ihf.2.2.1 x hx hx₃
                  simp only [List.mem_append]
                  exact Or.inl (Or.inr this)
              · intro d' hd'
                obtain ⟨x, hx, hxname, hxsub⟩ := hshr d' hd'
                obtain ⟨y, hy, hyname, hysub⟩ := ihf.2.2.2 x hx
                exact ⟨y, hy, hxname.trans hyname,
                  hxsub.trans hysub⟩
    obtain ⟨lNew, hleq, hn', hsurv, hrem, hcomp, hshr⟩ :=
      loop s.indirect_dependencies s [] s' l h hnodup (by
        intro x hx hnot
        exact absurd (List.mem_map.mpr ⟨x, hx, rfl⟩) hnot)
    have hleq' : l = lNew := by simpa using hleq
    subst hleq'
    refine ⟨hsurv, ?_, hcomp, hshr⟩
    intro n hmem
    obtain ⟨hin, hout⟩ := hrem n hmem
    refine ⟨?_, hout⟩
    rcases hin with hin | hin
    · exact hin
    · exact hin

theorem cleanupFuel_keeps : ∀ (fuel : Nat) (pkg : String) (s s' : Cfg)
    (l : List String) (r : Ref), cleanupFuel fuel pkg s = some (s', l) →
    (indNames s).Nodup → lowerStr r.name ≠ pkg →
    lowerStr r.name ∉ indNames s →
    ∀ x ∈ s.indirect_dependencies, r ∈ x.needed_by →
    ∃ x' ∈ s'.indirect_dependencies,
      lowerStr x'.name = lowerStr x.name ∧ r ∈ x'.needed_by := by
  intro fuel
  induction fuel with
  | zero => intro pkg s s' l r h; cases h
  | succ f ih =>
    intro pkg s s' l r h hnodup hrpkg hrind x hx hrx
    rw [cleanupFuel_succ] at h
    have loop : ∀ (snap : List Dep) (t : Cfg) (acc : List String)
        (t' : Cfg) (l' : List String),
        snap.foldl (cleanupStep f pkg) (some (t, acc)) = some (t', l') →
        (indNames t).Nodup →
        lowerStr r.name ∉ snap.map (fun z => lowerStr z.name) →
        lowerStr r.name ∉ indNames t →
        ∀ x ∈ t.indirect_dependencies, r ∈ x.needed_by →
        ∃ x' ∈ t'.indirect_dependencies,
          lowerStr x'.name = lowerStr x.name ∧ r ∈ x'.needed_by := by
      intro snap
      induction snap with
      | nil =>
        intro t acc t' l' hl hn hrsnap hrt x hx hrx
        rw [List.foldl_nil] at hl
        obtain ⟨rfl, rfl⟩ := Prod.mk.inj (Option.some.inj hl)
        exact ⟨x, hx, rfl, hrx⟩
      | cons d rest ihs =>
        intro t acc t' l' hl hn hrsnap hrt x hx hrx
        rw [List.foldl_cons] at hl
        cases hstep : cleanupStep f pkg (some (t, acc)) d with
        | none => rw [hstep, cleanupFoldl_none] at hl; cases hl
        | some r1 =>
          rw [hstep] at hl
          obtain ⟨t₁, acc₁⟩ := r1
          unfold cleanupStep at hstep
          have hrrest : lowerStr r.name ∉
              rest.map (fun z => lowerStr z.name) := by
            intro hmem
            refine hrsnap ?_
            simp only [List.map_cons]
            exact List.mem_cons_of_mem _ hmem
          have hrd : lowerStr r.name ≠ lowerStr d.name := by
            intro hcontra
            refine hrsnap ?_
            simp only [List.map_cons]
            exact hcontra ▸ List.mem_cons_self _ _
          cases hfind : t.indirect_dependencies.find? (·.eqName d) with
          | some cur =>
            have hcurmem : cur ∈ t.indirect_dependencies :=
              List.mem_of_find?_eq_some hfind
            have hfindp := List.find?_some hfind
            have hcureq : lowerStr cur.name = lowerStr d.name :=
              (eqName_iff cur d).mp hfindp
            simp only [hfind] at hstep
            by_cases hnb : ((cur.needed_by.filter
                (fun rr => lowerStr rr.name ≠ pkg)).isEmpty = true)
            · -- x cannot be the erased node: the erased node keeps no
              -- non-package requirers, but r survives the filter
              rw [if_pos hnb] at hstep
              cases hrec : cleanupFuel f (lowerStr d.name)
                  { t with indirect_dependencies := t.indirect_dependencies.eraseP (·.eqName d) } with
              | none => rw [hrec] at hstep; cases hstep
              | some r2 =>
                rw [hrec] at hstep
                obtain ⟨t₃, l₂⟩ := r2
                obtain ⟨rfl, rfl⟩ := Prod.mk.inj (Option.some.inj hstep)
                have herasesub :
                    (t.indirect_dependencies.eraseP (·.eqName d)).Sublist
                      t.indirect_dependencies := List.eraseP_sublist _
                have hn₂ : ((t.indirect_dependencies.eraseP
                    (·.eqName d)).map (fun z => lowerStr z.name)).Nodup :=
                  (herasesub.map _).nodup hn
                have hxne : x.eqName d = false := by
                  by_cases hxe : x.eqName d = true
                  · exfalso
                    have hxcur : x = cur := eq_of_name_eq_of_nodup _ x cur hx
                      hcurmem (by rw [(eqName_iff x d).mp hxe, hcureq]) hn
                    have hrcur : r ∈ cur.needed_by := hxcur ▸ hrx
                    have hrfil : r ∈ cur.needed_by.filter
                        (fun rr => lowerStr rr.name ≠ pkg) :=
                      List.mem_filter.mpr ⟨hrcur, by simpa using hrpkg⟩
                    have hnbnil : cur.needed_by.filter
                        (fun rr => lowerStr rr.name ≠ pkg) = [] := by
                      simpa using hnb
                    rw [hnbnil] at hrfil
                    cases hrfil
                  · simpa using hxe
                have hx₂ : x ∈ t.indirect_dependencies.eraseP (·.eqName d) :=
                  mem_eraseP_of_ne _ _ _ hx hxne
                have hrt₂ : lowerStr r.name ∉
                    ((t.indirect_dependencies.eraseP (·.eqName d)).map
                      (fun z => lowerStr z.name)) := by
                  intro hmem
                  exact hrt ((herasesub.map _).subset hmem)
                obtain ⟨x₃, hx₃, hx₃name, hrx₃⟩ :=
                  ih (lowerStr d.name) _ t₃ l₂ r hrec hn₂ hrd hrt₂ x hx₂ hrx
                have hshape₂ := cleanupFuel_shape _ _ _ _ _ hrec
                have hn₃ : (indNames t₃).Nodup := hshape₂.2.2.nodup hn₂
                have hrt₃ : lowerStr r.name ∉ indNames t₃ := by
                  intro hmem
                  exact hrt₂ (hshape₂.2.2.subset hmem)
                obtain ⟨x', hx', hx'name, hrx'⟩ :=
                  ihs t₃ _ t' l' hl hn₃ hrrest hrt₃ x₃ hx₃ hrx₃
                exact ⟨x', hx', hx'name.trans hx₃name, hrx'⟩
            · -- prune step: the kept node's refs other than pkg survive
              rw [if_neg hnb] at hstep
              obtain ⟨ht₁, hacc₁⟩ := Prod.mk.inj (Option.some.inj hstep)
              have hnames₁ := map_update_names t.indirect_dependencies d
                (cur.needed_by.filter (fun rr => lowerStr rr.name ≠ pkg))
              have hind : t₁.indirect_dependencies = t.indirect_dependencies.map (fun z => if z.eqName d then { z with needed_by := cur.needed_by.filter (fun rr => lowerStr rr.name ≠ pkg) } else z) := by
                rw [← ht₁]
              have hn₁ : (indNames t₁).Nodup := by
                unfold indNames
                rw [hind, hnames₁]
                exact hn
              have hrt₁ : lowerStr r.name ∉ indNames t₁ := by
                unfold indNames
                rw [hind, hnames₁]
                exact hrt
              rw [← hacc₁] at hl
              by_cases hxe : x.eqName d = true
              · have hxcur : x = cur := eq_of_name_eq_of_nodup _ x cur hx
                  hcurmem (by rw [(eqName_iff x d).mp hxe, hcureq]) hn
                have hgx := List.mem_map_of_mem (fun z => if z.eqName d then { z with needed_by := cur.needed_by.filter (fun rr => lowerStr rr.name ≠ pkg) } else z) hx
                rw [← hind] at hgx
                have hu₂ : lowerStr ((fun (z : Dep) => if z.eqName d then { z with needed_by := cur.needed_by.filter (fun rr => lowerStr rr.name ≠ pkg) } else z) x).name = lowerStr x.name := by
                  simp only [hxe, reduceIte]
                have hu₃ : r ∈ ((fun (z : Dep) => if z.eqName d then { z with needed_by := cur.needed_by.filter (fun rr => lowerStr rr.name ≠ pkg) } else z) x).needed_by := by
                  simp only [hxe, reduceIte]
                  exact List.mem_filter.mpr ⟨hxcur ▸ hrx, by simpa using hrpkg⟩
                obtain ⟨x', hx', hx'name, hrx'⟩ :=
                  ihs t₁ acc t' l' hl hn₁ hrrest hrt₁ _ hgx hu₃
                exact ⟨x', hx', hx'name.trans hu₂, hrx'⟩
              · have hxe' : x.eqName d = false := by simpa using hxe
                have hgx := List.mem_map_of_mem (fun z => if z.eqName d then { z with needed_by := cur.needed_by.filter (fun rr => lowerStr rr.name ≠ pkg) } else z) hx
                have hgx' : x ∈ t₁.indirect_dependencies := by
                  rw [hind]
                  simpa [hxe', reduceIte] using hgx
                exact ihs t₁ acc t' l' hl hn₁ hrrest hrt₁ x hgx' hrx
          | none =>
            simp only [hfind] at hstep
            cases hrec : cleanupFuel f (lowerStr d.name) t with
            | none => rw [hrec] at hstep; cases hstep
            | some r2 =>
              rw [hrec] at hstep
              obtain ⟨t₃, l₂⟩ := r2
              obtain ⟨rfl, rfl⟩ := Prod.mk.inj (Option.some.inj hstep)
              have hshape₂ := cleanupFuel_shape _ _ _ _ _ hrec
              have hn₃ : (indNames t₃).Nodup := hshape₂.2.2.nodup hn
              have hrt₃ : lowerStr r.name ∉ indNames t₃ := by
                intro hmem
                exact hrt (hshape₂.2.2.subset hmem)
              obtain ⟨x₃, hx₃, hx₃name, hrx₃⟩ :=
                ih (lowerStr d.name) t t₃ l₂ r hrec hn hrd hrt x hx hrx
              obtain ⟨x', hx', hx'name, hrx'⟩ :=
                ihs t₃ _ t' l' hl hn₃ hrrest hrt₃ x₃ hx₃ hrx₃
              exact ⟨x', hx', hx'name.trans hx₃name, hrx'⟩
    exact loop s.indirect_dependencies s [] s' l h hnodup hrind hrind x hx hrx

theorem cleanupFuel_fixed (f : Nat) (pkg : String) (s : Cfg)
    (hnodup : (indNames s).Nodup)
    (hclean : ∀ d ∈ s.indirect_dependencies, d.needed_by ≠ [] ∧
      ∀ r ∈ d.needed_by, lowerStr r.name ≠ pkg) :
    cleanupFuel (f + 1) pkg s = some (s, []) := by
  rw [cleanupFuel_succ]
  have loop : ∀ (snap : List Dep), (∀ d ∈ snap, d ∈ s.indirect_dependencies) →
      snap.foldl (cleanupStep f pkg) (some (s, [])) = some (s, []) := by
    intro snap
    induction snap with
    | nil => intro _; rw [List.foldl_nil]
    | cons d rest ihs =>
      intro hsub
      rw [List.foldl_cons]
      have hd : d ∈ s.indirect_dependencies := hsub d (List.mem_cons_self _ _)
      have hfil : d.needed_by.filter (fun r => lowerStr r.name ≠ pkg) =
          d.needed_by := by
        refine List.filter_eq_self.mpr ?_
        intro r hr
        simpa using (hclean d hd).2 r hr
      have hemp : d.needed_by.isEmpty = false := by
        cases hh : d.needed_by with
        | nil => exact absurd hh (hclean d hd).1
        | cons a as => rfl
      have hmapid : s.indirect_dependencies.map (fun x =>
          if x.eqName d then { x with needed_by := d.needed_by } else x) =
          s.indirect_dependencies := by
        have hcongr : ∀ x ∈ s.indirect_dependencies,
            (if x.eqName d then { x with needed_by := d.needed_by } else x) =
            x := by
          intro x hx
          by_cases hxe : x.eqName d = true
          · have hxd : x = d := eq_of_name_eq_of_nodup _ x d hx hd
              ((eqName_iff x d).mp hxe) hnodup
            subst hxd
            simp [hxe]
          · simp [hxe]
        calc s.indirect_dependencies.map (fun x =>
            if x.eqName d then { x with needed_by := d.needed_by } else x) =
            s.indirect_dependencies.map (fun x => x) :=
              List.map_congr_left hcongr
          _ = s.indirect_dependencies := List.map_id' _
      have hstep : cleanupStep f pkg (some (s, [])) d = some (s, []) := by
        unfold cleanupStep
        simp only [find?_eqName_self _ _ hd hnodup]
        rw [hfil, hemp]
        simp only [Bool.false_eq_true, if_false]
        rw [hmapid]
      rw [hstep]
      exact ihs (fun x hx => hsub x (List.mem_cons_of_mem _ hx))
  exact loop s.indirect_dependencies (fun d hd => hd)

theorem sublist_single {α : Type} {l : List α} {a : α} (h : l.Sublist [a]) :
    l = [] ∨ l = [a] := by
  cases h with
  | cons _ h' => exact Or.inl (List.sublist_nil.mp h')
  | cons₂ _ h' => rw [List.sublist_nil.mp h']; exact Or.inr rfl

theorem sublist_pair {α : Type} {l : List α} {a b : α} (h : l.Sublist [a, b]) :
    l = [] ∨ l = [a] ∨ l = [b] ∨ l = [a, b] := by
  cases h with
  | cons _ h' =>
    rcases sublist_single h' with h'' | h''
    · exact Or.inl h''
    · exact Or.inr (Or.inr (Or.inl h''))
  | cons₂ _ h' =>
    rcases sublist_single h' with h'' | h''
    · rw [h'']
      exact Or.inr (Or.inl rfl)
    · rw [h'']
      exact Or.inr (Or.inr (Or.inr rfl))

/-- **C2.** Cascade correctness of `remove`. In a graph whose indirect-node
names are pairwise distinct (lower-cased) where the indirect node `C` is
required by exactly the two root packages `A` and `B` (its `needed_by` is
`[refA, refB]`, `B` not itself an indirect node): `remove A` leaves a node
for `C` whose `needed_by` is exactly `[refB]`; `remove A` then `remove B`
removes `C` and reports it among the cascaded removals; the removal list of
`remove A` is the target followed by the cascade list, which satisfies
`CleanupOk` (pruned survivors keep no reference to the removed package,
every removed name was an indirect name and is gone, every indirect node
that disappeared is listed, survivors shrink); and the resulting state is a
fixed point: a further full cleanup pass for the same package removes
nothing and leaves the state unchanged, for every fuel. -/
theorem claim_C2_cascade (A B : String) (refA refB : Ref) (C : Dep)
    (s s₁ s₂ : Cfg) (l₁ l₂ m₁ m₂ : List String)
    (hnodup : (indNames s).Nodup)
    (hCmem : C ∈ s.indirect_dependencies)
    (hCnb : C.needed_by = [refA, refB])
    (hrefA : lowerStr refA.name = lowerStr A)
    (hrefB : lowerStr refB.name = lowerStr B)
    (hAB : lowerStr A ≠ lowerStr B)
    (hBnotind : lowerStr B ∉ indNames s)
    (hAall : lowerStr A ∈ s.all)
    (hBall : lowerStr B ∈ s₁.all)
    (hrm₁ : removePkg false A s = some (s₁, l₁, m₁))
    (hrm₂ : removePkg false B s₁ = some (s₂, l₂, m₂)) :
    (∃ C₁ ∈ s₁.indirect_dependencies,
      lowerStr C₁.name = lowerStr C.name ∧ C₁.needed_by = [refB]) ∧
    lowerStr C.name ∉ indNames s₂ ∧
    (∃ lc₂, l₂ = lowerStr B :: lc₂ ∧ lowerStr C.name ∈ lc₂) ∧
    (∃ lc₁, l₁ = lowerStr A :: lc₁ ∧ CleanupOk (lowerStr A) s s₁ lc₁) ∧
    (∀ f, cleanupFuel (f + 1) (lowerStr A) s₁ = some (s₁, [])) := by
  rw [removePkg_proceeds A s hAall] at hrm₁
  cases hclean₁ : cleanupFuel
      (cleanupFuelBound (removeRootSections (lowerStr A) s)) (lowerStr A)
      (removeRootSections (lowerStr A) s) with
  | none => rw [hclean₁] at hrm₁; cases hrm₁
  | some p =>
    rw [hclean₁] at hrm₁
    obtain ⟨t₁, lc₁⟩ := p
    obtain ⟨h1, h23⟩ := Prod.mk.inj (Option.some.inj hrm₁)
    obtain ⟨h2, h3⟩ := Prod.mk.inj h23
    have h1' := h1.symm
    subst h1'
    subst h2
    subst h3
    have hnr : (indNames (removeRootSections (lowerStr A) s)).Nodup := hnodup
    have hok₁ : CleanupOk (lowerStr A) (removeRootSections (lowerStr A) s)
        s₁ lc₁ := cleanupFuel_ok _ _ _ _ _ hclean₁ hnr
    have hshape₁ := cleanupFuel_shape _ _ _ _ _ hclean₁
    have hnodup₁ : (indNames s₁).Nodup := hshape₁.2.2.nodup hnr
    have hrBpkg : lowerStr refB.name ≠ lowerStr A := by
      rw [hrefB]
      exact Ne.symm hAB
    have hrBind : lowerStr refB.name ∉
        indNames (removeRootSections (lowerStr A) s) := by
      rw [hrefB]
      exact hBnotind
    have hrBC : refB ∈ C.needed_by := by
      rw [hCnb]
      exact List.mem_cons_of_mem _ (List.mem_cons_self _ _)
    obtain ⟨C₁, hC₁mem, hC₁name, hrBC₁⟩ := cleanupFuel_keeps _ _ _ _ _ refB
      hclean₁ hnr hrBpkg hrBind C hCmem hrBC
    obtain ⟨hC₁ne, hC₁refs⟩ := hok₁.1 C₁ hC₁mem
    obtain ⟨dd, hdd, hddname, hddsub⟩ := hok₁.2.2.2 C₁ hC₁mem
    have hddC : dd = C := eq_of_name_eq_of_nodup s.indirect_dependencies dd C
      hdd hCmem (by rw [← hddname, hC₁name]) hnodup
    rw [hddC, hCnb] at hddsub
    have hnbeq : C₁.needed_by = [refB] := by
      rcases sublist_pair hddsub with hc | hc | hc | hc
      · rw [hc] at hrBC₁
        cases hrBC₁
      · rw [hc] at hrBC₁
        have : refB = refA := List.mem_singleton.mp hrBC₁
        rw [this, hrefA] at hrefB
        exact absurd hrefB hAB
      · exact hc
      · exfalso
        have hrA : refA ∈ C₁.needed_by := by
          rw [hc]
          exact List.mem_cons_self _ _
        exact (hC₁refs refA hrA).1 hrefA
    refine ⟨⟨C₁, hC₁mem, hC₁name, hnbeq⟩, ?_⟩
    -- unpack the second removal
    rw [removePkg_proceeds B s₁ hBall] at hrm₂
    cases hclean₂ : cleanupFuel
        (cleanupFuelBound (removeRootSections (lowerStr B) s₁)) (lowerStr B)
        (removeRootSections (lowerStr B) s₁) with
    | none => rw [hclean₂] at hrm₂; cases hrm₂
    | some q =>
      rw [hclean₂] at hrm₂
      obtain ⟨t₂, lc₂⟩ := q
      obtain ⟨g1, g23⟩ := Prod.mk.inj (Option.some.inj hrm₂)
      obtain ⟨g2, g3⟩ := Prod.mk.inj g23
      have g1' := g1.symm
      subst g1'
      subst g2
      subst g3
      have hnr₂ : (indNames (removeRootSections (lowerStr B) s₁)).Nodup :=
        hnodup₁
      have hok₂ : CleanupOk (lowerStr B) (removeRootSections (lowerStr B) s₁)
          s₂ lc₂ := cleanupFuel_ok _ _ _ _ _ hclean₂ hnr₂
      have hgone : lowerStr C.name ∉ indNames s₂ := by
        intro hmem
        obtain ⟨z, hz, hzname⟩ := List.mem_map.mp hmem
        obtain ⟨dd₂, hdd₂, hdd₂name, hdd₂sub⟩ := hok₂.2.2.2 z hz
        have hzname' : lowerStr z.name = lowerStr C.name := hzname
        have hdd₂C₁ : dd₂ = C₁ := by
          refine eq_of_name_eq_of_nodup s₁.indirect_dependencies dd₂ C₁ hdd₂
            hC₁mem ?_ hnodup₁
          rw [← hdd₂name, hzname', ← hC₁name]
        subst hdd₂C₁
        rw [hnbeq] at hdd₂sub
        obtain ⟨hzne, hzrefs⟩ := hok₂.1 z hz
        rcases sublist_single hdd₂sub with hc | hc
        · exact hzne hc
        · have : refB ∈ z.needed_by := by
            rw [hc]
            exact List.mem_cons_self _ _
          exact (hzrefs refB this).1 hrefB
      refine ⟨hgone, ⟨lc₂, rfl, ?_⟩, ⟨lc₁, rfl, hok₁⟩, ?_⟩
      · have := hok₂.2.2.1 C₁ hC₁mem (by rw [hC₁name]; exact hgone)
        rw [hC₁name] at this
        exact this
      · intro f
        refine cleanupFuel_fixed f (lowerStr A) s₁ hnodup₁ ?_
        intro d hd
        obtain ⟨h1', h2'⟩ := hok₁.1 d hd
        exact ⟨h1', fun r hr => (h2' r hr).1⟩

theorem saveStep_deps (doc : TomlDoc) (d : Dep) :
    (saveStep doc d).dependencies =
    doc.dependencies ++ (if isMainDep d then [d.asString] else []) := by
  unfold saveStep isMainDep
  by_cases hnb : d.needed_by = []
  · cases ho : d.optional with
    | none => simp [hnb, ho]
    | some g => simp [hnb, ho]
  · simp [hnb]

theorem saveStep_ind (doc : TomlDoc) (d : Dep) :
    (saveStep doc d).indirectDependencies =
    doc.indirectDependencies ++
      (if isIndDep d then [compositeString d] else []) := by
  unfold saveStep isIndDep compositeString
  by_cases hnb : d.needed_by = []
  · cases ho : d.optional with
    | none => simp [hnb, ho]
    | some g => simp [hnb, ho]
  · simp [hnb]

theorem saveStep_lock (doc : TomlDoc) (d : Dep) :
    (saveStep doc d).dependencyLock =
    doc.dependencyLock ++ [lockString d] := by
  unfold saveStep lockString
  by_cases hnb : d.needed_by = []
  · cases ho : d.optional with
    | none => simp [hnb, ho]
    | some g => simp [hnb, ho]
  · simp [hnb]

theorem saveStep_opt (doc : TomlDoc) (d : Dep) :
    (saveStep doc d).optionalDependencies =
    optStep doc.optionalDependencies d := by
  unfold saveStep optStep isOptDep
  by_cases hnb : d.needed_by = []
  · cases ho : d.optional with
    | none => simp [hnb, ho]
    | some g => simp [hnb, ho]
  · simp [hnb]

theorem configSave_fold_deps : ∀ (G : List Dep) (doc : TomlDoc),
    (G.foldl saveStep doc).dependencies =
    doc.dependencies ++ (G.filter isMainDep).map Dep.asString := by
  intro G
  induction G with
  | nil => intro doc; simp
  | cons d G ih =>
    intro doc
    rw [List.foldl_cons, ih, saveStep_deps, List.filter_cons]
    by_cases hd : isMainDep d = true
    · simp [hd]
    · simp [hd]

theorem configSave_fold_ind : ∀ (G : List Dep) (doc : TomlDoc),
    (G.foldl saveStep doc).indirectDependencies =
    doc.indirectDependencies ++ (G.filter isIndDep).map compositeString := by
  intro G
  induction G with
  | nil => intro doc; simp
  | cons d G ih =>
    intro doc
    rw [List.foldl_cons, ih, saveStep_ind, List.filter_cons]
    by_cases hd : isIndDep d = true
    · simp [hd]
    · simp [hd]

theorem configSave_fold_lock : ∀ (G : List Dep) (doc : TomlDoc),
    (G.foldl saveStep doc).dependencyLock =
    doc.dependencyLock ++ G.map lockString := by
  intro G
  induction G with
  | nil => intro doc; simp
  | cons d G ih =>
    intro doc
    rw [List.foldl_cons, ih, saveStep_lock, List.map_cons]
    simp

theorem configSave_fold_opt : ∀ (G : List Dep) (doc : TomlDoc),
    (G.foldl saveStep doc).optionalDependencies =
    G.foldl optStep doc.optionalDependencies := by
  intro G
  induction G with
  | nil => intro doc; rfl
  | cons d G ih =>
    intro doc
    rw [List.foldl_cons, ih, saveStep_opt, List.foldl_cons]

theorem parseAll_map_ok (p : String → Except String Dep) (f : Dep → String)
    (q : Dep → Dep) : ∀ (ds : List Dep), (∀ d ∈ ds, p (f d) = .ok (q d)) →
    parseAll p (ds.map f) = .ok (ds.map q) := by
  intro ds
  induction ds with
  | nil => intro _; rfl
  | cons d ds ih =>
    intro h
    rw [List.map_cons, List.map_cons]
    simp only [parseAll, h d (List.mem_cons_self _ _),
      ih (fun x hx => h x (List.mem_cons_of_mem _ hx))]

theorem dedup_nodup_id : ∀ (es l : List Dep),
    ((l ++ es).map (fun x => lowerStr x.name)).Nodup →
    es.foldl addIfNew l = l ++ es := by
  intro es
  induction es with
  | nil => intro l _; simp
  | cons e es ih =>
    intro l h
    rw [List.foldl_cons]
    have hnew : addIfNew l e = l ++ [e] := by
      unfold addIfNew
      rw [if_neg]
      intro hany
      obtain ⟨x, hx, hxe⟩ := List.any_eq_true.mp hany
      have hname := (eqName_iff x e).mp hxe
      rw [List.map_append] at h
      obtain ⟨-, -, hdisj⟩ := List.nodup_append.mp h
      refine hdisj (List.mem_map.mpr ⟨x, hx, rfl⟩) ?_
      rw [hname]
      exact List.mem_map.mpr ⟨e, List.mem_cons_self _ _, rfl⟩
    rw [hnew, ih (l ++ [e]) (by simpa [List.append_assoc] using h)]
    simp

theorem dedup_dup_drop : ∀ (es l : List Dep),
    (∀ e ∈ es, lowerStr e.name ∈ l.map (fun x => lowerStr x.name)) →
    es.foldl addIfNew l = l := by
  intro es
  induction es with
  | nil => intro l _; rfl
  | cons e es ih =>
    intro l h
    rw [List.foldl_cons]
    have hold : addIfNew l e = l := by
      unfold addIfNew
      rw [if_pos]
      obtain ⟨x, hx, hxn⟩ := List.mem_map.mp (h e (List.mem_cons_self _ _))
      exact List.any_eq_true.mpr ⟨x, hx, (eqName_iff x e).mpr hxn⟩
    rw [hold]
    exact ih l (fun x hx => h x (List.mem_cons_of_mem _ hx))

theorem filter_three_perm (G : List Dep) :
    (G.filter isMainDep ++ G.filter isOptDep ++ G.filter isIndDep).Perm
      G := by
  induction G with
  | nil => simp
  | cons d G ih =>
    by_cases hnb : d.needed_by.isEmpty = true
    · by_cases ho : d.optional.isNone = true
      · have h1 : isMainDep d = true := by simp [isMainDep, hnb, ho]
        have h2 : isOptDep d = false := by simp [isOptDep, hnb, ho]
        have h3 : isIndDep d = false := by simp [isIndDep, hnb]
        simp only [List.filter_cons, h1, h2, h3, reduceIte]
        refine List.Perm.trans ?_ (ih.cons d)
        exact List.Perm.refl _
      · have ho' : d.optional.isNone = false := Bool.eq_false_iff.mpr ho
        have h1 : isMainDep d = false := by simp [isMainDep, ho']
        have h2 : isOptDep d = true := by simp [isOptDep, hnb, ho']
        have h3 : isIndDep d = false := by simp [isIndDep, hnb]
        simp only [List.filter_cons, h1, h2, h3, reduceIte]
        refine List.Perm.trans ?_ (ih.cons d)
        simp only [List.append_assoc]
        exact List.perm_middle
    · have hnb' : d.needed_by.isEmpty = false := Bool.eq_false_iff.mpr hnb
      have h1 : isMainDep d = false := by simp [isMainDep, hnb']
      have h2 : isOptDep d = false := by simp [isOptDep, hnb']
      have h3 : isIndDep d = true := by simp [isIndDep, hnb']
      simp only [List.filter_cons, h1, h2, h3, reduceIte]
      refine List.Perm.trans ?_ (ih.cons d)
      exact List.perm_middle

theorem parseAll_append (p : String → Except String Dep) :
    ∀ (ss ts : List String), parseAll p (ss ++ ts) =
    match parseAll p ss, parseAll p ts with
    | .error e, _ => .error e
    | .ok _, .error e => .error e
    | .ok a, .ok b => .ok (a ++ b) := by
  intro ss ts
  induction ss with
  | nil =>
    simp only [List.nil_append]
    show parseAll p ts = _
    cases parseAll p ts <;> rfl
  | cons s ss ih =>
    rw [List.cons_append]
    simp only [parseAll]
    rw [ih]
    cases hps : p s with
    | error e => rfl
    | ok d =>
      cases parseAll p ss with
      | error e => rfl
      | ok a =>
        cases parseAll p ts with
        | error e => rfl
        | ok b => rfl

theorem groupsParse_seed (c : List Dep) :
    ∀ (groups : List (String × List String)),
    groups.foldr
      (fun gs (acc : Except String (List Dep)) =>
        match parseAll (fromString · (some gs.1)) gs.2, acc with
        | Except.error e, _ => Except.error e
        | Except.ok _, Except.error e => Except.error e
        | Except.ok b, Except.ok bs => Except.ok (b ++ bs)) (Except.ok c) =
    match groupsParse groups with
    | .error e => .error e
    | .ok bs => .ok (bs ++ c) := by
  intro groups
  induction groups with
  | nil => rfl
  | cons gp rest ih =>
    rw [List.foldr_cons]
    show (match parseAll (fromString · (some gp.1)) gp.2, _ with
      | Except.error e, _ => Except.error e
      | Except.ok _, Except.error e => Except.error e
      | Except.ok b, Except.ok bs => Except.ok (b ++ bs)) = _
    rw [ih]
    show _ = (match (match parseAll (fromString · (some gp.1)) gp.2,
        groupsParse rest with
      | Except.error e, _ => Except.error e
      | Except.ok _, Except.error e => Except.error e
      | Except.ok b, Except.ok bs => Except.ok (b ++ bs)) with
      | .error e => .error e
      | .ok bs => .ok (bs ++ c))
    cases parseAll (fromString · (some gp.1)) gp.2 with
    | error e => rfl
    | ok b =>
      cases groupsParse rest with
      | error e => rfl
      | ok bs => simp

theorem appendToGroup_keys_nodup (gs : List (String × List String))
    (g s : String) (h : (gs.map Prod.fst).Nodup) :
    ((appendToGroup gs g s).map Prod.fst).Nodup := by
  unfold appendToGroup
  by_cases hany : gs.any (·.1 = g) = true
  · rw [if_pos hany]
    have heq : (gs.map (fun x => if x.1 = g then (x.1, x.2 ++ [s]) else x)).map
        Prod.fst = gs.map Prod.fst := by
      rw [List.map_map]
      refine List.map_congr_left ?_
      intro x _
      by_cases hx : x.1 = g <;> simp [hx]
    rw [heq]
    exact h
  · rw [if_neg hany, List.map_append]
    refine List.Nodup.append h (List.nodup_singleton g) ?_
    intro a ha hag
    have hag' : a = g := by simpa using hag
    subst hag' 
    obtain ⟨x, hx, hxg⟩ := List.mem_map.mp ha
    exact hany (List.any_eq_true.mpr ⟨x, hx, by simp [hxg]⟩)

theorem groupsParse_appendToGroup (g s : String) (d' : Dep)
    (hp : fromString s (some g) = .ok d') :
    ∀ (groups : List (String × List String)) (bs : List Dep),
    (groups.map Prod.fst).Nodup →
    groupsParse groups = .ok bs →
    ∃ bs₁ bs₂, bs = bs₁ ++ bs₂ ∧
      groupsParse (appendToGroup groups g s) = .ok (bs₁ ++ [d'] ++ bs₂) := by
  intro groups
  induction groups with
  | nil =>
    intro bs _ h
    have hbs : bs = [] := (Except.ok.inj h).symm
    subst hbs
    refine ⟨[], [], rfl, ?_⟩
    show groupsParse [(g, [s])] = _
    simp [groupsParse, parseAll, hp]
  | cons gp rest ih =>
    intro bs hkeys h
    have hcons : groupsParse (gp :: rest) =
        match parseAll (fromString · (some gp.1)) gp.2, groupsParse rest with
        | Except.error e, _ => Except.error e
        | Except.ok _, Except.error e => Except.error e
        | Except.ok b, Except.ok bs => Except.ok (b ++ bs) := rfl
    rw [hcons] at h
    cases hb₀ : parseAll (fromString · (some gp.1)) gp.2 with
    | error e => rw [hb₀] at h; cases h
    | ok b₀ =>
      rw [hb₀] at h
      cases hbs₀ : groupsParse rest with
      | error e => rw [hbs₀] at h; cases h
      | ok bs₀ =>
        rw [hbs₀] at h
        have hbs : bs = b₀ ++ bs₀ := (Except.ok.inj h).symm
        subst hbs
        by_cases hany : ((gp :: rest).any (·.1 = g)) = true
        · by_cases hgp : gp.1 = g
          · -- the head group receives the entry; later groups are untouched
            have hgnotrest : ∀ x ∈ rest, x.1 ≠ g := by
              intro x hx hxg
              have : gp.1 ∈ rest.map Prod.fst := by
                rw [hgp, ← hxg]
                exact List.mem_map.mpr ⟨x, hx, rfl⟩
              exact (List.nodup_cons.mp hkeys).1 this
            have happ : appendToGroup (gp :: rest) g s =
                (gp.1, gp.2 ++ [s]) :: rest := by
              unfold appendToGroup
              rw [if_pos hany, List.map_cons, if_pos hgp]
              congr 1
              refine List.map_congr_left ?_ |>.trans (List.map_id' _)
              intro x hx
              rw [if_neg (hgnotrest x hx)]
            rw [happ]
            refine ⟨b₀, bs₀, rfl, ?_⟩
            show (match parseAll (fromString · (some gp.1)) (gp.2 ++ [s]),
                groupsParse rest with
              | Except.error e, _ => Except.error e
              | Except.ok _, Except.error e => Except.error e
              | Except.ok b, Except.ok bs => Except.ok (b ++ bs)) = _
            rw [parseAll_append, hb₀, hbs₀]
            have hps : parseAll (fromString · (some gp.1)) [s] = .ok [d'] := by
              rw [hgp]
              simp [parseAll, hp]
            rw [hps]
          · -- the entry goes to a later group
            have hanyrest : rest.any (·.1 = g) = true := by
              rcases List.any_eq_true.mp hany with ⟨x, hx, hxg⟩
              rcases List.mem_cons.mp hx with rfl | hxr
              · exact absurd (by simpa using hxg) hgp
              · exact List.any_eq_true.mpr ⟨x, hxr, hxg⟩
            have happ : appendToGroup (gp :: rest) g s =
                gp :: appendToGroup rest g s := by
              unfold appendToGroup
              rw [if_pos hany, if_pos hanyrest, List.map_cons, if_neg hgp]
            obtain ⟨bs₁, bs₂, hsplit, hrest⟩ :=
              ih bs₀ (List.nodup_cons.mp hkeys).2 hbs₀
            rw [happ]
            refine ⟨b₀ ++ bs₁, bs₂, by rw [hsplit, List.append_assoc], ?_⟩
            show (match parseAll (fromString · (some gp.1)) gp.2,
                groupsParse (appendToGroup rest g s) with
              | Except.error e, _ => Except.error e
              | Except.ok _, Except.error e => Except.error e
              | Except.ok b, Except.ok bs => Except.ok (b ++ bs)) = _
            rw [hb₀, hrest]
            simp
        · -- a brand-new group is appended at the end
          have happ : appendToGroup (gp :: rest) g s =
              (gp :: rest) ++ [(g, [s])] := by
            unfold appendToGroup
            rw [if_neg hany]
          have hgp2 : groupsParse (gp :: rest) = .ok (b₀ ++ bs₀) := by
            rw [hcons, hb₀, hbs₀]
          have hsingle : groupsParse [(g, [s])] = .ok [d'] := by
            simp [groupsParse, parseAll, hp]
          refine ⟨b₀ ++ bs₀, [], by simp, ?_⟩
          rw [happ]
          show ((gp :: rest) ++ [(g, [s])]).foldr
            (fun gs (acc : Except String (List Dep)) =>
              match parseAll (fromString · (some gs.1)) gs.2, acc with
              | Except.error e, _ => Except.error e
              | Except.ok _, Except.error e => Except.error e
              | Except.ok b, Except.ok bs => Except.ok (b ++ bs))
            (Except.ok []) = _
          rw [List.foldr_append]
          have hinner : ([(g, [s])] : List (String × List String)).foldr
              (fun gs (acc : Except String (List Dep)) =>
                match parseAll (fromString · (some gs.1)) gs.2, acc with
                | Except.error e, _ => Except.error e
                | Except.ok _, Except.error e => Except.error e
                | Except.ok b, Except.ok bs => Except.ok (b ++ bs))
              (Except.ok []) = Except.ok [d'] := hsingle
          rw [hinner]
          have hseed := groupsParse_seed [d'] (gp :: rest)
          rw [hgp2] at hseed
          rw [hseed]
          simp

theorem scrub_root (d : Dep) (h : d.needed_by = []) :
    { plainRoot d with optional := d.optional } = scrubDep d := by
  cases d with
  | mk n v op o nb sh rq =>
    have h' : nb = [] := h
    subst h'
    rfl

theorem scrub_main (d : Dep) (hnb : d.needed_by = [])
    (ho : d.optional = none) : plainRoot d = scrubDep d := by
  cases d with
  | mk n v op o nb sh rq =>
    have h1 : nb = [] := hnb
    have h2 : o = none := ho
    subst h1
    subst h2
    rfl

theorem scrub_ind (d : Dep) (ho : d.optional = none) :
    { plainRoot d with needed_by := d.needed_by } = scrubDep d := by
  cases d with
  | mk n v op o nb sh rq =>
    have h2 : o = none := ho
    subst h2
    rfl

theorem opt_getD (d : Dep) (h : isOptDep d = true) :
    d.optional = some (d.optional.getD "") := by
  unfold isOptDep at h
  cases ho : d.optional with
  | none => rw [ho] at h; simp at h
  | some g => rfl

theorem optFold_parse : ∀ (G : List Dep),
    (∀ d ∈ G, WfDep d) →
    ∀ (gs : List (String × List String)) (bs : List Dep),
    (gs.map Prod.fst).Nodup →
    groupsParse gs = .ok bs →
    ∃ bs', groupsParse (G.foldl optStep gs) = .ok bs' ∧
      bs'.Perm (bs ++ (G.filter isOptDep).map scrubDep) ∧
      ((G.foldl optStep gs).map Prod.fst).Nodup := by
  intro G
  induction G with
  | nil =>
    intro _ gs bs hkeys hok
    exact ⟨bs, hok, by simp, hkeys⟩
  | cons d G ih =>
    intro hwf gs bs hkeys hok
    rw [List.foldl_cons]
    by_cases hd : isOptDep d = true
    · have hopt := opt_getD d hd
      have hw := (hwf d (List.mem_cons_self _ _)).2.1
      have hnb : d.needed_by = [] := by
        unfold isOptDep at hd
        have h1 : d.needed_by.isEmpty = true := by
          cases hh : d.needed_by.isEmpty
          · rw [hh] at hd
            simp at hd
          · rfl
        simpa using h1
      have hp : fromString d.asString (some (d.optional.getD "")) =
          .ok (scrubDep d) := by
        rw [← hopt, hw, scrub_root d hnb]
      have hstep : optStep gs d =
          appendToGroup gs (d.optional.getD "") d.asString := by
        unfold optStep
        rw [if_pos hd]
      obtain ⟨bs₁, bs₂, hsplit, hnext⟩ :=
        groupsParse_appendToGroup _ _ _ hp gs bs hkeys hok
      have hoknext : groupsParse (optStep gs d) =
          .ok (bs₁ ++ [scrubDep d] ++ bs₂) := by
        rw [hstep]
        exact hnext
      have hkeysnext : ((optStep gs d).map Prod.fst).Nodup := by
        rw [hstep]
        exact appendToGroup_keys_nodup gs _ _ hkeys
      obtain ⟨bs', hok', hperm', hkeys''⟩ :=
        ih (fun x hx => hwf x (List.mem_cons_of_mem _ hx)) (optStep gs d)
          (bs₁ ++ [scrubDep d] ++ bs₂) hkeysnext hoknext
      refine ⟨bs', hok', ?_, hkeys''⟩
      have hfil : (d :: G).filter isOptDep = d :: G.filter isOptDep := by
        rw [List.filter_cons, if_pos hd]
      rw [hfil, List.map_cons]
      refine hperm'.trans ?_
      rw [hsplit]
      simp only [List.append_assoc, List.cons_append, List.singleton_append,
        List.nil_append]
      exact List.Perm.append_left _ List.perm_middle.symm
    · have hstep : optStep gs d = gs := by
        unfold optStep
        rw [if_neg hd]
      rw [hstep]
      have hfil : (d :: G).filter isOptDep = G.filter isOptDep := by
        rw [List.filter_cons, if_neg hd]
      rw [hfil]
      exact ih (fun x hx => hwf x (List.mem_cons_of_mem _ hx)) gs bs hkeys hok

theorem names_scrub (l : List Dep) :
    (l.map scrubDep).map (fun x => lowerStr x.name) =
    l.map (fun x => lowerStr x.name) := by
  rw [List.map_map]
  rfl

theorem names_lockDep (l : List Dep) :
    (l.map lockDep).map (fun x => lowerStr x.name) =
    l.map (fun x => lowerStr x.name) := by
  rw [List.map_map]
  rfl

theorem configEntries_save (G : List Dep)
    (hwf : ∀ d ∈ G, WfDep d)
    (hkinds : ∀ d ∈ G, d.needed_by ≠ [] → d.optional = none) :
    ∃ bs, configEntries (configSave G) =
      .ok ((G.filter isMainDep).map scrubDep ++ bs ++
        (G.filter isIndDep).map scrubDep ++ G.map lockDep) ∧
      bs.Perm ((G.filter isOptDep).map scrubDep) := by
  have h1 : (configSave G).dependencies =
      (G.filter isMainDep).map Dep.asString := by
    show (G.foldl saveStep {}).dependencies = _
    rw [configSave_fold_deps]
    rfl
  have h2 : (configSave G).optionalDependencies = G.foldl optStep [] := by
    show (G.foldl saveStep {}).optionalDependencies = _
    rw [configSave_fold_opt]
  have h3 : (configSave G).indirectDependencies =
      (G.filter isIndDep).map compositeString := by
    show (G.foldl saveStep {}).indirectDependencies = _
    rw [configSave_fold_ind]
    rfl
  have h4 : (configSave G).dependencyLock = G.map lockString := by
    show (G.foldl saveStep {}).dependencyLock = _
    rw [configSave_fold_lock]
    rfl
  have hmains : parseAll (fromString · none)
      ((G.filter isMainDep).map Dep.asString) =
      .ok ((G.filter isMainDep).map scrubDep) := by
    refine parseAll_map_ok _ _ _ _ ?_
    intro d hd
    obtain ⟨hdG, hdm⟩ := List.mem_filter.mp hd
    have hnb : d.needed_by = [] := by
      unfold isMainDep at hdm
      cases hh : d.needed_by.isEmpty
      · rw [hh] at hdm
        simp at hdm
      · simpa using hh
    have ho : d.optional = none := by
      unfold isMainDep at hdm
      cases hh : d.optional.isNone
      · rw [hh] at hdm
        simp at hdm
      · simpa using hh
    rw [← scrub_main d hnb ho]
    exact (hwf d hdG).1
  obtain ⟨bs, hokG, hpermG, -⟩ := optFold_parse G hwf [] [] (by simp) rfl
  have hinds : parseAll fromCompositeString
      ((G.filter isIndDep).map compositeString) =
      .ok ((G.filter isIndDep).map scrubDep) := by
    refine parseAll_map_ok _ _ _ _ ?_
    intro d hd
    obtain ⟨hdG, hdm⟩ := List.mem_filter.mp hd
    have hnb : d.needed_by ≠ [] := by
      unfold isIndDep at hdm
      intro hcontra
      rw [hcontra] at hdm
      simp at hdm
    have ho : d.optional = none := hkinds d hdG hnb
    rw [← scrub_ind d ho]
    exact (hwf d hdG).2.2.1 hnb
  have hlock : parseAll fromLockString (G.map lockString) =
      .ok (G.map lockDep) := by
    refine parseAll_map_ok _ _ _ _ ?_
    intro d hd
    exact (hwf d hd).2.2.2
  refine ⟨bs, ?_, by simpa using hpermG⟩
  show (match parseAll (fromString · none) (configSave G).dependencies with
    | Except.error e => Except.error e
    | Except.ok a =>
      match (configSave G).optionalDependencies.foldr
          (fun (gs : String × List String) (acc : Except String (List Dep)) =>
            match parseAll (fromString · (some gs.1)) gs.2, acc with
            | Except.error e, _ => Except.error e
            | Except.ok _, Except.error e => Except.error e
            | Except.ok b, Except.ok bs => Except.ok (b ++ bs))
          (Except.ok []) with
      | Except.error e => Except.error e
      | Except.ok b =>
        match parseAll fromCompositeString
            (configSave G).indirectDependencies with
        | Except.error e => Except.error e
        | Except.ok c =>
          match parseAll fromLockString (configSave G).dependencyLock with
          | Except.error e => Except.error e
          | Except.ok d => Except.ok (a ++ b ++ c ++ d)) = _
  have hokG' : (configSave G).optionalDependencies.foldr
      (fun (gs : String × List String) (acc : Except String (List Dep)) =>
        match parseAll (fromString · (some gs.1)) gs.2, acc with
        | Except.error e, _ => Except.error e
        | Except.ok _, Except.error e => Except.error e
        | Except.ok b, Except.ok bs => Except.ok (b ++ bs))
      (Except.ok []) = Except.ok bs := by
    rw [h2]
    exact hokG
  rw [h1, h2, h3, h4, hmains, hinds, hlock]
  rw [← h2, hokG']

/-- **C3.** (amended) `load(save(G))` is structurally equal to `G` — one
node per lower-cased name with the same name, version, operator, optional
group and `needed_by` edges — for every graph whose names are pairwise
distinct (lower-cased), whose rendered entries parse back (`WfDep`), and
whose indirect nodes carry no optional tag.  What the round trip does not
keep is exactly `scrubDep`: `sha256` is reset to the class default
`"hashqwe"` (the lock entries, the only carrier of the real hashes, are
deduplicated away on load) and `requires_dist` is dropped, so
`save(load(save(G)))` does not reproduce the same persisted document. -/
theorem claim_C3_roundtrip (G : List Dep)
    (hnodup : (G.map (fun d => lowerStr d.name)).Nodup)
    (hwf : ∀ d ∈ G, WfDep d)
    (hkinds : ∀ d ∈ G, d.needed_by ≠ [] → d.optional = none) :
    ∃ L, configLoad (configSave G) = .ok L ∧
      L.Perm (G.map scrubDep) := by
  obtain ⟨bs, hentries, hperm⟩ := configEntries_save G hwf hkinds
  have hperm3 := filter_three_perm G
  have hnames₁ : (((G.filter isMainDep).map scrubDep ++ bs ++
      (G.filter isIndDep).map scrubDep).map (fun x => lowerStr x.name)).Perm
      (G.map (fun x => lowerStr x.name)) := by
    rw [List.map_append, List.map_append, names_scrub, names_scrub]
    refine List.Perm.trans ?_ (hperm3.map (fun x => lowerStr x.name))
    rw [List.map_append, List.map_append]
    refine List.Perm.append_right _ (List.Perm.append_left _ ?_)
    have hb := hperm.map (fun x => lowerStr x.name)
    rw [names_scrub] at hb
    exact hb
  have hnodup₁ : (((G.filter isMainDep).map scrubDep ++ bs ++
      (G.filter isIndDep).map scrubDep).map
        (fun x => lowerStr x.name)).Nodup :=
    hnames₁.symm.nodup hnodup
  have hfold : (((G.filter isMainDep).map scrubDep ++ bs ++
      (G.filter isIndDep).map scrubDep) ++ G.map lockDep).foldl addIfNew [] =
      (G.filter isMainDep).map scrubDep ++ bs ++
        (G.filter isIndDep).map scrubDep := by
    rw [List.foldl_append]
    rw [dedup_nodup_id _ [] (by simpa using hnodup₁)]
    rw [List.nil_append]
    refine dedup_dup_drop _ _ ?_
    intro e he
    obtain ⟨d, hdG, rfl⟩ := List.mem_map.mp he
    have hmem : lowerStr d.name ∈ G.map (fun x => lowerStr x.name) :=
      List.mem_map.mpr ⟨d, hdG, rfl⟩
    exact hnames₁.symm.subset hmem
  have hload : configLoad (configSave G) =
      .ok ((G.filter isMainDep).map scrubDep ++ bs ++
        (G.filter isIndDep).map scrubDep) := by
    rw [configLoad_eq_dedup, hentries]
    show Except.ok ((((G.filter isMainDep).map scrubDep ++ bs ++
        (G.filter isIndDep).map scrubDep) ++ G.map lockDep).foldl
          addIfNew []) = _
    rw [hfold]
  refine ⟨_, hload, ?_⟩
  refine List.Perm.trans ?_ (hperm3.map scrubDep)
  rw [List.map_append, List.map_append]
  exact List.Perm.append_right _ (List.Perm.append_left _ hperm)

/-- C3 counterexample: the persisted-bytes idempotence half of the claim
fails.  For the one-node graph `gC3`, whose direct dependency records a real
sha256, `load(save(G))` succeeds and is structurally equal to `G`, but the
reloaded node's sha256 has reverted to the class default `"hashqwe"` (its
lock entry, the only place the hash is persisted, is deduplicated away by
`Config.__init__` because the name was already loaded from
`project.dependencies`), so the node differs from the original and
`save(load(save(G)))` produces a different persisted document than
`save(G)` — the dependency-lock section changes, which is a value change,
not a key-ordering change. -/
theorem claim_C3_counterexample :
    configLoad (configSave gC3) = .ok [scrubDep depC3] ∧
    scrubDep depC3 ≠ depC3 ∧
    configSave [scrubDep depC3] ≠ configSave gC3 := by
  refine ⟨by decide, by decide, by decide⟩

/-- Witness for C3 on the three-section graph `gC3w`. -/
theorem claim_C3_witness :
    ∃ L, configLoad (configSave gC3w) = .ok L ∧
      L.Perm (gC3w.map scrubDep) :=
  claim_C3_roundtrip gC3w (by decide) (by decide) (by decide)

/-- Witness for C2 on the concrete diamond `cfgC2`. -/
theorem claim_C2_witness :
    (∃ C₁ ∈ cfgC2mid.indirect_dependencies,
      lowerStr C₁.name = lowerStr depC2C.name ∧ C₁.needed_by = [refC2B]) ∧
    lowerStr depC2C.name ∉ indNames cfgC2end ∧
    (∃ lc₂, ["pkgb", "libc"] = lowerStr "PkgB" :: lc₂ ∧
      lowerStr depC2C.name ∈ lc₂) ∧
    (∃ lc₁, ["pkga"] = lowerStr "PkgA" :: lc₁ ∧
      CleanupOk (lowerStr "PkgA") cfgC2 cfgC2mid lc₁) ∧
    (∀ f, cleanupFuel (f + 1) (lowerStr "PkgA") cfgC2mid =
      some (cfgC2mid, [])) :=
  claim_C2_cascade "PkgA" "PkgB" refC2A refC2B depC2C cfgC2 cfgC2mid cfgC2end
    ["pkga"] ["pkgb", "libc"] [] []
    (by decide) (by decide) (by decide) (by decide) (by decide) (by decide)
    (by decide) (by decide) (by decide) (by decide) (by decide)

end Moppi
